import Mathlib

/-!
Verification of the extraction / identifier-resolution / fallback-cascade
pipeline of `pscube_hits_crawl_and_aggregate.py` (v18.5).

The Python source is shallowly embedded below.  Strings are `List Char`;
every regular expression of the source is embedded as a specialized
backtracking matcher that follows Python `re` semantics (leftmost scan,
greedy/lazy quantifiers with backtracking, ordered alternation,
non-overlapping `finditer`).  Unicode-dependent primitives (NFKC folding,
`\s`, `\w`, case folding for `re.IGNORECASE`) are modelled on the character
ranges this program's data can contain (ASCII, the full-width ASCII block,
kana, CJK); outside those ranges they act as the identity, which is noted
at each definition.  Browser interaction (Playwright) is an external
collaborator: the cascade model receives its responses as explicit
environment data, while all post-processing that the Python performs on
those responses is embedded faithfully.
-/

namespace Pscube

abbrev Str := List Char

/-- ASCII decimal digit `0-9`. -/
def isAsciiDigit (c : Char) : Bool := decide (48 ≤ c.toNat ∧ c.toNat ≤ 57)

/-- Full-width decimal digit `０-９` (U+FF10..U+FF19). -/
def isFullwidthDigit (c : Char) : Bool := decide (0xFF10 ≤ c.toNat ∧ c.toNat ≤ 0xFF19)

/-- Character class `[0-9０-９,]` used by `RE_NUM_G`. -/
def isNumChar (c : Char) : Bool :=
  decide ((48 ≤ c.toNat ∧ c.toNat ≤ 57) ∨ (0xFF10 ≤ c.toNat ∧ c.toNat ≤ 0xFF19) ∨
          c.toNat = 44)

/-- Python `\s` (Unicode whitespace as matched by `re` on `str`). -/
def isSpaceChar (c : Char) : Bool :=
  decide (c.toNat = 32 ∨ c.toNat = 9 ∨ c.toNat = 10 ∨ c.toNat = 13 ∨
          c.toNat = 0x0B ∨ c.toNat = 0x0C ∨
          (0x1C ≤ c.toNat ∧ c.toNat ≤ 0x1F) ∨ c.toNat = 0x85 ∨
          c.toNat = 0xA0 ∨ c.toNat = 0x1680 ∨
          (0x2000 ≤ c.toNat ∧ c.toNat ≤ 0x200A) ∨
          c.toNat = 0x2028 ∨ c.toNat = 0x2029 ∨
          c.toNat = 0x202F ∨ c.toNat = 0x205F ∨ c.toNat = 0x3000)

/-- Python `\w` (Unicode word character), restricted to the ranges this
program's data contains: ASCII alphanumerics and underscore, Latin-1
letters, hiragana, katakana (with the prolonged-sound mark), CJK ideographs
and the full-width alphanumerics / half-width katakana blocks. -/
def isWordChar (c : Char) : Bool :=
  decide ((48 ≤ c.toNat ∧ c.toNat ≤ 57) ∨
          (65 ≤ c.toNat ∧ c.toNat ≤ 90) ∨ (97 ≤ c.toNat ∧ c.toNat ≤ 122) ∨
          c.toNat = 95 ∨
          (0xC0 ≤ c.toNat ∧ c.toNat ≤ 0xFF ∧ c.toNat ≠ 0xD7 ∧ c.toNat ≠ 0xF7) ∨
          (0x3041 ≤ c.toNat ∧ c.toNat ≤ 0x3096) ∨
          (0x30A1 ≤ c.toNat ∧ c.toNat ≤ 0x30FA) ∨ c.toNat = 0x30FC ∨
          (0x4E00 ≤ c.toNat ∧ c.toNat ≤ 0x9FFF) ∨
          (0xFF10 ≤ c.toNat ∧ c.toNat ≤ 0xFF19) ∨
          (0xFF21 ≤ c.toNat ∧ c.toNat ≤ 0xFF3A) ∨
          (0xFF41 ≤ c.toNat ∧ c.toNat ≤ 0xFF5A) ∨
          (0xFF66 ≤ c.toNat ∧ c.toNat ≤ 0xFF9F))

/-- Case folding used for `re.IGNORECASE` matching: ASCII and full-width
upper-case letters fold to the corresponding lower-case letter (Unicode
simple folding on the ranges appearing in this program); other characters
fold to themselves. -/
def charFold (c : Char) : Char :=
  if 65 ≤ c.toNat ∧ c.toNat ≤ 90 then Char.ofNat (c.toNat + 32)
  else if 0xFF21 ≤ c.toNat ∧ c.toNat ≤ 0xFF3A then Char.ofNat (c.toNat + 32)
  else c

/-- Case-insensitive character comparison (Python `re.IGNORECASE`). -/
def charIEq (p c : Char) : Bool := charFold p == charFold c

/-- NFKC normalization of one character (`unicodedata.normalize("NFKC", ·)`),
modelled on the width-folding ranges this program relies on: the full-width
ASCII block U+FF01..U+FF5E maps to ASCII, the ideographic space U+3000 maps
to a space; other characters are left unchanged. -/
def nfkcChar (c : Char) : Str :=
  if 0xFF01 ≤ c.toNat ∧ c.toNat ≤ 0xFF5E then [Char.ofNat (c.toNat - 0xFEE0)]
  else if c.toNat = 0x3000 then [' ']
  else [c]

def nfkcStr (l : Str) : Str := l.flatMap nfkcChar

/-- Python `str.upper` on the characters of this program's domain
(ASCII letters; everything else unchanged — full-width letters have been
folded away by NFKC before `upper` is applied in the source). -/
def upperChar (c : Char) : Char :=
  if 97 ≤ c.toNat ∧ c.toNat ≤ 122 then Char.ofNat (c.toNat - 32) else c

def upperStr (l : Str) : Str := l.map upperChar

/-- Length of the maximal prefix whose characters satisfy `p`. -/
def countLeading (p : Char → Bool) : Str → Nat
  | [] => 0
  | c :: cs => if p c then countLeading p cs + 1 else 0

/-- `re.sub(r"\s+", " ", s)`: every maximal run of whitespace becomes a
single space. -/
def collapse_ws : Str → Str
  | [] => []
  | [c] => [if isSpaceChar c then ' ' else c]
  | a :: b :: t =>
    if isSpaceChar a && isSpaceChar b then collapse_ws (b :: t)
    else (if isSpaceChar a then ' ' else a) :: collapse_ws (b :: t)

/-- Python `str.strip()`: drop leading and trailing whitespace. -/
def pyStrip (l : Str) : Str :=
  ((l.dropWhile isSpaceChar).reverse.dropWhile isSpaceChar).reverse

/-- Embedding of `_normalize_text`: NFKC fold, then `s.replace(",", " ")`,
then collapse whitespace runs to a single space, then strip. -/
def normalize_text (s : Str) : Str :=
  pyStrip (collapse_ws ((nfkcStr s).map (fun c => if c == ',' then ' ' else c)))

/-- Value of a string of ASCII digits. -/
def natOfDigits (l : Str) : Nat := l.foldl (fun a c => 10 * a + (c.toNat - 48)) 0

/-- Python `int(...)` on the strings this program feeds it (an optional
sign followed by ASCII digits after normalization; anything else raises,
which the source converts to `None`). -/
def pyIntOfString (l : Str) : Option Int :=
  match l with
  | [] => none
  | c :: rest =>
    if c = '-' then
      if rest ≠ [] ∧ rest.all isAsciiDigit then some (-(natOfDigits rest : Int)) else none
    else if c = '+' then
      if rest ≠ [] ∧ rest.all isAsciiDigit then some ((natOfDigits rest : Int)) else none
    else
      if (c :: rest).all isAsciiDigit then some ((natOfDigits (c :: rest) : Int)) else none

/-- Embedding of `_num_to_int`: `int(_normalize_text(num_raw).replace(" ", ""))`,
`None` on failure. -/
def num_to_int (raw : Str) : Option Int :=
  pyIntOfString ((normalize_text raw).filter (fun c => !(c == ' ')))

/-- Python substring test `needle in hay` (prefix at some position). -/
def strPrefixAt : Str → Str → Bool
  | [], _ => true
  | _ :: _, [] => false
  | n :: ns, h :: hs => n == h && strPrefixAt ns hs

def strContains (hay needle : Str) : Bool :=
  match hay with
  | [] => needle.isEmpty
  | _ :: t => strPrefixAt needle hay || strContains t needle

/-- Embedding of `_kind_to_std`: NFKC + upper-case, then REG iff the token
contains "REG", or contains both `R` and `B`, or contains "レギュ", or
equals "RB"; otherwise BIG. -/
def kind_to_std (raw : Str) : Str :=
  let k := upperStr (nfkcStr raw)
  if strContains k ("REG".data) || (k.contains 'R' && k.contains 'B') ||
     strContains k ("レギュ".data) || k == ("RB".data)
  then "REG".data else "BIG".data

/-- First match of `[0-9]{2,5}` (greedy) in a string: scan left to right,
at the first position where at least two ASCII digits start, take at most
five of them. -/
def daiScan : Str → Option Str
  | [] => none
  | c :: cs =>
    let run := countLeading isAsciiDigit (c :: cs)
    if 2 ≤ run then some ((c :: cs).take (min run 5)) else daiScan cs

/-- Embedding of `_to_dai_str`: `None` for `None`/empty, otherwise the first
`[0-9]{2,5}` match in the normalized string. -/
def to_dai_str (s : Option Str) : Option Str :=
  match s with
  | none => none
  | some s => if s = [] then none else daiScan (normalize_text s)

/-! ### Regex machinery: ordered backtracking over candidate splits

Each regex component maps an input suffix to the list of possible
`(consumed-capture, rest)` splits in the order Python's backtracking engine
would try them (greedy quantifiers: longest first; alternation: pattern
order).  A sequence of components is matched by `firstSome`, which realizes
full backtracking over the candidate lists. -/

def firstSome : List α → (α → Option β) → Option β
  | [], _ => none
  | a :: t, f => match f a with | some b => some b | none => firstSome t f

/-- Case-insensitive literal: consume exactly the pattern (returning the
consumed input characters, which the regex group captures). -/
def litCI : Str → Str → Option (Str × Str)
  | [], rest => some ([], rest)
  | _ :: _, [] => none
  | p :: ps, c :: cs =>
    if charIEq p c then
      match litCI ps cs with
      | some tr => some (c :: tr.1, tr.2)
      | none => none
    else none

/-- Candidates of a greedy `p*`: rests after consuming the maximal run of
`p`-characters, then ever shorter prefixes of it, down to nothing. -/
def starCands (p : Char → Bool) (cs : Str) : List Str :=
  let run := countLeading p cs
  (List.range (run + 1)).map (fun i => cs.drop (run - i))

/-- Candidates of the greedy `(?P<num>[0-9０-９,]{1,6})` of `RE_NUM_G`:
prefixes of the leading num-character run, longest (capped at 6) first. -/
def numCands (cs : Str) : List (Str × Str) :=
  let n := min 6 (countLeading isNumChar cs)
  (List.range n).map (fun i => (cs.take (n - i), cs.drop (n - i)))

/-- Rests of the alternation `(?:G|ｇ|Ｇ|ゲーム)` (case-insensitive). -/
def gAlts (cs : Str) : List Str :=
  ((litCI ("G".data) cs).toList ++ (litCI ("ｇ".data) cs).toList ++
   (litCI ("Ｇ".data) cs).toList ++ (litCI ("ゲーム".data) cs).toList).map (fun tr => tr.2)

/-- Candidates of the optional greedy `(?:G|ｇ|Ｇ|ゲーム)?`. -/
def optGCands (cs : Str) : List Str := gAlts cs ++ [cs]

/-- Candidates of `p1\W*p2` (the `B\W*B` / `R\W*B` alternatives of
`RE_KIND`): first character, a greedy run of non-word characters
(backtracked longest first), then the second character. -/
def sepPairCands (p1 p2 : Char) (cs : Str) : List (Str × Str) :=
  match cs with
  | [] => []
  | c :: cs' =>
    if charIEq p1 c then
      let run := countLeading (fun x => !(isWordChar x)) cs'
      (List.range (run + 1)).filterMap (fun i =>
        match cs'.drop (run - i) with
        | d :: rest =>
          if charIEq p2 d then some (c :: (cs'.take (run - i) ++ [d]), rest) else none
        | [] => none)
    else []

/-- Candidates of `RE_KIND`
`(BIG|ＢＩＧ|B\W*B|ビッグ|REG|ＲＥＧ|R\W*B|レギュラ|RB|ＲＢ|BB|ＢＢ)`
in alternation order, each case-insensitive. -/
def kindCands (cs : Str) : List (Str × Str) :=
  (litCI ("BIG".data) cs).toList ++ (litCI ("ＢＩＧ".data) cs).toList ++
  sepPairCands 'B' 'B' cs ++
  (litCI ("ビッグ".data) cs).toList ++
  (litCI ("REG".data) cs).toList ++ (litCI ("ＲＥＧ".data) cs).toList ++
  sepPairCands 'R' 'B' cs ++
  (litCI ("レギュラ".data) cs).toList ++
  (litCI ("RB".data) cs).toList ++ (litCI ("ＲＢ".data) cs).toList ++
  (litCI ("BB".data) cs).toList ++ (litCI ("ＢＢ".data) cs).toList

/-- Anchored match of `RE_HIT_INLINE_1` = `NUM \s* optG \s* KIND`:
returns `(num capture, kind capture, rest)`. -/
def matchP1At (cs : Str) : Option (Str × Str × Str) :=
  firstSome (numCands cs) fun nr =>
  firstSome (starCands isSpaceChar nr.2) fun r2 =>
  firstSome (optGCands r2) fun r3 =>
  firstSome (starCands isSpaceChar r3) fun r4 =>
  match kindCands r4 with
  | [] => none
  | kr :: _ => some (nr.1, kr.1, kr.2)

/-- Anchored match of `RE_HIT_INLINE_2` = `KIND \s* NUM \s* optG`:
returns `(kind capture, num capture, rest)`. -/
def matchP2At (cs : Str) : Option (Str × Str × Str) :=
  firstSome (kindCands cs) fun kr =>
  firstSome (starCands isSpaceChar kr.2) fun r2 =>
  firstSome (numCands r2) fun nr =>
  firstSome (starCands isSpaceChar nr.2) fun r4 =>
  match optGCands r4 with
  | [] => none
  | r5 :: _ => some (kr.1, nr.1, r5)

theorem firstSome_eq_some {l : List α} {f : α → Option β} {b : β}
    (h : firstSome l f = some b) : ∃ a ∈ l, f a = some b := by
  induction l with
  | nil => simp [firstSome] at h
  | cons a t ih =>
    simp only [firstSome] at h
    cases hfa : f a with
    | some b' => rw [hfa] at h; exact ⟨a, by simp, by simpa [hfa] using h⟩
    | none =>
      rw [hfa] at h
      obtain ⟨x, hx, hfx⟩ := ih h
      exact ⟨x, by simp [hx], hfx⟩

theorem firstSome_cons_some {a : α} {t : List α} {f : α → Option β} {b : β}
    (h : f a = some b) : firstSome (a :: t) f = some b := by
  simp [firstSome, h]

theorem countLeading_le_length (p : Char → Bool) (l : Str) :
    countLeading p l ≤ l.length := by
  induction l with
  | nil => simp [countLeading]
  | cons c cs ih =>
    simp only [countLeading, List.length_cons]
    split
    · omega
    · omega

theorem mem_starCands_length {p : Char → Bool} {cs r : Str}
    (h : r ∈ starCands p cs) : r.length ≤ cs.length := by
  simp only [starCands, List.mem_map, List.mem_range] at h
  obtain ⟨i, _, rfl⟩ := h
  simp [List.length_drop]

theorem mem_numCands_length {cs : Str} {nr : Str × Str}
    (h : nr ∈ numCands cs) : nr.2.length < cs.length := by
  simp only [numCands, List.mem_map, List.mem_range] at h
  obtain ⟨i, hi, rfl⟩ := h
  have hn : min 6 (countLeading isNumChar cs) ≤ cs.length :=
    le_trans (min_le_right _ _) (countLeading_le_length _ _)
  simp only [List.length_drop]
  omega

theorem litCI_rest_le {p cs : Str} {tr : Str × Str}
    (h : litCI p cs = some tr) : tr.2.length ≤ cs.length := by
  induction p generalizing cs tr with
  | nil =>
    simp only [litCI, Option.some.injEq] at h
    cases h
    exact le_refl _
  | cons q ps ih =>
    cases cs with
    | nil => simp [litCI] at h
    | cons c cs' =>
      simp only [litCI] at h
      split at h
      · cases hr : litCI ps cs' with
        | none => rw [hr] at h; exact absurd h (by simp)
        | some tr' =>
          rw [hr] at h
          simp only [Option.some.injEq] at h
          have := ih hr
          cases h
          simpa using Nat.le_succ_of_le this
      · exact absurd h (by simp)

theorem litCI_rest_lt {q : Char} {ps cs : Str} {tr : Str × Str}
    (h : litCI (q :: ps) cs = some tr) : tr.2.length < cs.length := by
  cases cs with
  | nil => simp [litCI] at h
  | cons c cs' =>
    simp only [litCI] at h
    split at h
    · cases hr : litCI ps cs' with
      | none => rw [hr] at h; exact absurd h (by simp)
      | some tr' =>
        rw [hr] at h
        simp only [Option.some.injEq] at h
        have := litCI_rest_le hr
        cases h
        simpa using Nat.lt_succ_of_le this
    · exact absurd h (by simp)

theorem mem_optGCands_length {cs r : Str} (h : r ∈ optGCands cs) :
    r.length ≤ cs.length := by
  simp only [optGCands, gAlts, List.mem_append, List.mem_singleton, List.mem_map] at h
  rcases h with ⟨tr, htr, rfl⟩ | rfl
  · simp only [List.mem_append, Option.mem_toList, Option.mem_def] at htr
    rcases htr with ((h1 | h1) | h1) | h1 <;> exact litCI_rest_le h1
  · exact le_refl _

theorem mem_sepPairCands_length {p1 p2 : Char} {cs : Str} {kr : Str × Str}
    (h : kr ∈ sepPairCands p1 p2 cs) : kr.2.length < cs.length := by
  cases cs with
  | nil => simp [sepPairCands] at h
  | cons c cs' =>
    simp only [sepPairCands] at h
    split at h
    · simp only [List.mem_filterMap, List.mem_range] at h
      obtain ⟨i, _, hi⟩ := h
      cases hd : cs'.drop (countLeading (fun x => !(isWordChar x)) cs' - i) with
      | nil => rw [hd] at hi; exact absurd hi (by simp)
      | cons d rest =>
        rw [hd] at hi
        have hi' : (if charIEq p2 d = true then
            some (c :: (cs'.take (countLeading (fun x => !isWordChar x) cs' - i) ++ [d]), rest)
          else none) = some kr := hi
        by_cases hc : charIEq p2 d = true
        · rw [if_pos hc] at hi'
          have hdl : (d :: rest).length ≤ cs'.length := by
            rw [← hd]; simp [List.length_drop]
          simp only [List.length_cons] at hdl
          cases hi'
          simp only [List.length_cons]
          omega
        · rw [if_neg hc] at hi'
          exact absurd hi' (by simp)
    · simp at h

theorem mem_kindCands_length {cs : Str} {kr : Str × Str}
    (h : kr ∈ kindCands cs) : kr.2.length < cs.length := by
  simp only [kindCands, List.mem_append, Option.mem_toList, Option.mem_def] at h
  rcases h with (((((((((((h | h) | h) | h) | h) | h) | h) | h) | h) | h) | h) | h)
  all_goals first
    | exact litCI_rest_lt h
    | exact mem_sepPairCands_length h

theorem matchP1At_rest_lt {cs : Str} {out : Str × Str × Str}
    (h : matchP1At cs = some out) : out.2.2.length < cs.length := by
  obtain ⟨nr, hnr, h⟩ := firstSome_eq_some h
  obtain ⟨r2, hr2, h⟩ := firstSome_eq_some h
  obtain ⟨r3, hr3, h⟩ := firstSome_eq_some h
  obtain ⟨r4, hr4, h⟩ := firstSome_eq_some h
  cases hk : kindCands r4 with
  | nil => rw [hk] at h; simp at h
  | cons kr t =>
    rw [hk] at h
    have hkr : kr ∈ kindCands r4 := by rw [hk]; simp
    have h1 := mem_numCands_length hnr
    have h2 := mem_starCands_length hr2
    have h3 := mem_optGCands_length hr3
    have h4 := mem_starCands_length hr4
    have h5 := mem_kindCands_length hkr
    cases h with
    | refl => simp only; omega

theorem matchP2At_rest_lt {cs : Str} {out : Str × Str × Str}
    (h : matchP2At cs = some out) : out.2.2.length < cs.length := by
  obtain ⟨kr, hkr, h⟩ := firstSome_eq_some h
  obtain ⟨r2, hr2, h⟩ := firstSome_eq_some h
  obtain ⟨nr, hnr, h⟩ := firstSome_eq_some h
  obtain ⟨r4, hr4, h⟩ := firstSome_eq_some h
  cases hg : optGCands r4 with
  | nil => rw [hg] at h; simp at h
  | cons r5 t =>
    rw [hg] at h
    have hr5 : r5 ∈ optGCands r4 := by rw [hg]; simp
    have h1 := mem_kindCands_length hkr
    have h2 := mem_starCands_length hr2
    have h3 := mem_numCands_length hnr
    have h4 := mem_starCands_length hr4
    have h5 := mem_optGCands_length hr5
    cases h with
    | refl => simp only; omega

/-- Python `finditer`: scan left to right; at a match continue after its
end (non-overlapping), otherwise advance one position.  Structurally
recursive on a fuel that starts at the string length; since every match
of the patterns used here consumes at least one character (the `*_lt`
consumption lemmas below), this fuel is never exhausted before the scan
ends (`finditerGFuel_stable`). -/
def finditerGFuel (matchAt : Str → Option (α × Str)) : Nat → Str → List α
  | _, [] => []
  | 0, _ :: _ => []
  | fuel + 1, c :: cs =>
    match matchAt (c :: cs) with
    | some out => out.1 :: finditerGFuel matchAt fuel out.2
    | none => finditerGFuel matchAt fuel cs

def finditerG (matchAt : Str → Option (α × Str)) (l : Str) : List α :=
  finditerGFuel matchAt l.length l

theorem finditerGFuel_stable {matchAt : Str → Option (α × Str)}
    (hcons : ∀ cs out, matchAt cs = some out → out.2.length < cs.length) :
    ∀ (f g : Nat) (l : Str), l.length ≤ f → l.length ≤ g →
      finditerGFuel matchAt f l = finditerGFuel matchAt g l := by
  intro f
  induction f with
  | zero =>
    intro g l hf _
    cases l with
    | nil => cases g <;> rfl
    | cons c cs => simp at hf
  | succ f ih =>
    intro g l hf hg
    cases l with
    | nil => cases g <;> rfl
    | cons c cs =>
      cases g with
      | zero => simp at hg
      | succ g =>
        cases hm : matchAt (c :: cs) with
        | some out =>
          have hlt := hcons _ _ hm
          simp only [List.length_cons] at hf hg hlt
          simp only [finditerGFuel, hm]
          rw [ih g out.2 (by omega) (by omega)]
        | none =>
          simp only [List.length_cons] at hf hg
          simp only [finditerGFuel, hm]
          rw [ih g cs (by omega) (by omega)]

/-- The anchored pattern-1 match shaped for `finditerG` (captures paired). -/
def matchP1Mapped (cs : Str) : Option ((Str × Str) × Str) :=
  (matchP1At cs).map (fun out => ((out.1, out.2.1), out.2.2))

/-- The anchored pattern-2 match shaped for `finditerG`. -/
def matchP2Mapped (cs : Str) : Option ((Str × Str) × Str) :=
  (matchP2At cs).map (fun out => ((out.1, out.2.1), out.2.2))

theorem matchP1Mapped_lt : ∀ cs out, matchP1Mapped cs = some out → out.2.length < cs.length := by
  intro cs out h
  cases hm : matchP1At cs with
  | none => simp [matchP1Mapped, hm] at h
  | some o =>
    have := matchP1At_rest_lt hm
    simp only [matchP1Mapped, hm, Option.map_some'] at h
    cases h
    simpa using this

theorem matchP2Mapped_lt : ∀ cs out, matchP2Mapped cs = some out → out.2.length < cs.length := by
  intro cs out h
  cases hm : matchP2At cs with
  | none => simp [matchP2Mapped, hm] at h
  | some o =>
    have := matchP2At_rest_lt hm
    simp only [matchP2Mapped, hm, Option.map_some'] at h
    cases h
    simpa using this

/-- `RE_HIT_INLINE_1.finditer`: `(num, kind)` captures. -/
def finditer1 (l : Str) : List (Str × Str) := finditerG matchP1Mapped l

/-- `RE_HIT_INLINE_2.finditer`: `(kind, num)` captures. -/
def finditer2 (l : Str) : List (Str × Str) := finditerG matchP2Mapped l

theorem finditer1_cons (c : Char) (cs : Str) :
    finditer1 (c :: cs) =
      match matchP1At (c :: cs) with
      | some out => (out.1, out.2.1) :: finditer1 out.2.2
      | none => finditer1 cs := by
  cases hm : matchP1At (c :: cs) with
  | some out =>
    have hmm : matchP1Mapped (c :: cs) = some ((out.1, out.2.1), out.2.2) := by
      simp [matchP1Mapped, hm]
    have hlt := matchP1At_rest_lt hm
    simp only [List.length_cons] at hlt
    show finditerGFuel matchP1Mapped (c :: cs).length (c :: cs) = _
    simp only [List.length_cons, finditerGFuel, hmm]
    congr 1
    exact finditerGFuel_stable matchP1Mapped_lt cs.length out.2.2.length out.2.2
      (by omega) (le_refl _)
  | none =>
    have hmm : matchP1Mapped (c :: cs) = none := by simp [matchP1Mapped, hm]
    show finditerGFuel matchP1Mapped (c :: cs).length (c :: cs) = _
    simp only [List.length_cons, finditerGFuel, hmm]
    rfl

set_option maxHeartbeats 1000000 in
theorem finditer2_cons (c : Char) (cs : Str) :
    finditer2 (c :: cs) =
      match matchP2At (c :: cs) with
      | some out => (out.1, out.2.1) :: finditer2 out.2.2
      | none => finditer2 cs := by
  cases hm : matchP2At (c :: cs) with
  | some out =>
    have hmm : matchP2Mapped (c :: cs) = some ((out.1, out.2.1), out.2.2) := by
      simp [matchP2Mapped, hm]
    have hlt := matchP2At_rest_lt hm
    simp only [List.length_cons] at hlt
    show finditerGFuel matchP2Mapped (c :: cs).length (c :: cs) = _
    simp only [List.length_cons, finditerGFuel, hmm]
    congr 1
    exact finditerGFuel_stable matchP2Mapped_lt cs.length out.2.2.length out.2.2
      (by omega) (le_refl _)
  | none =>
    have hmm : matchP2Mapped (c :: cs) = none := by simp [matchP2Mapped, hm]
    show finditerGFuel matchP2Mapped (c :: cs).length (c :: cs) = _
    simp only [List.length_cons, finditerGFuel, hmm]
    rfl

/-- Embedding of `_scan_line_for_hits`: all pattern-1 matches, then all
pattern-2 matches; each capture whose number parses contributes
`(game count, standardized kind)`. -/
def scan_line_for_hits (line : Str) : List (Int × Str) :=
  (finditer1 line).filterMap
    (fun nk => (num_to_int nk.1).map (fun gi => (gi, kind_to_std nk.2))) ++
  (finditer2 line).filterMap
    (fun kn => (num_to_int kn.2).map (fun gi => (gi, kind_to_std kn.1)))

/-! ### Identifier (dai) extraction regexes -/

/-- Case-sensitive literal match (for the patterns compiled without
`re.IGNORECASE`). -/
def lit : Str → Str → Option (Str × Str)
  | [], rest => some ([], rest)
  | _ :: _, [] => none
  | p :: ps, c :: cs =>
    if p == c then
      match lit ps cs with
      | some tr => some (c :: tr.1, tr.2)
      | none => none
    else none

/-- `[0-9０-９]` as used by the dai patterns. -/
def isJpDigit (c : Char) : Bool := isAsciiDigit c || isFullwidthDigit c

/-- Candidates of a greedy `[0-9０-９]{2,5}` group: splits with the longest
digit prefix (capped at 5) first, failing entirely below two digits. -/
def digitGroupCandsBy (dig : Char → Bool) (cs : Str) : List (Str × Str) :=
  let run := min 5 (countLeading dig cs)
  if run < 2 then []
  else (List.range (run - 1)).map (fun i => (cs.take (run - i), cs.drop (run - i)))

def digitGroupCands (cs : Str) : List (Str × Str) := digitGroupCandsBy isJpDigit cs

def asciiDigitGroupCands (cs : Str) : List (Str × Str) := digitGroupCandsBy isAsciiDigit cs

/-- Candidates of an optional single character of class `p` (greedy). -/
def optClassCands (p : Char → Bool) (cs : Str) : List Str :=
  match cs with
  | [] => [[]]
  | c :: cs' => if p c then [cs', c :: cs'] else [c :: cs']

/-- Candidates of a bounded greedy class repetition `p{0,maxN}`. -/
def boundedClassCands (p : Char → Bool) (maxN : Nat) (cs : Str) : List Str :=
  let run := min maxN (countLeading p cs)
  (List.range (run + 1)).map (fun i => cs.drop (run - i))

/-- Candidates of a lazy class repetition `p*?` (shortest first). -/
def lazyClassCands (p : Char → Bool) (cs : Str) : List Str :=
  let run := countLeading p cs
  (List.range (run + 1)).map (fun i => cs.drop i)

/-- Sequencing helpers: push a list of possible rests through one more
component, preserving the backtracking order. -/
def seqLit (pat : Str) (rs : List Str) : List Str :=
  rs.filterMap (fun r => (lit pat r).map (fun tr => tr.2))

def seqLitCI (pat : Str) (rs : List Str) : List Str :=
  rs.filterMap (fun r => (litCI pat r).map (fun tr => tr.2))

def seqStar (p : Char → Bool) (rs : List Str) : List Str :=
  rs.flatMap (starCands p)

/-- Anchored match of `RE_DAI_LABEL` `(台番|台番号)\s*[:：#]?\s*([0-9０-９]{2,5})`,
returning the two capture groups. -/
def matchDaiLabelAt (cs : Str) : Option (Str × Str) :=
  firstSome ((lit ("台番".data) cs).toList ++ (lit ("台番号".data) cs).toList) fun lr =>
  firstSome (starCands isSpaceChar lr.2) fun r2 =>
  firstSome (optClassCands (fun c => c == ':' || c == '：' || c == '#') r2) fun r3 =>
  firstSome (starCands isSpaceChar r3) fun r4 =>
  match digitGroupCands r4 with
  | [] => none
  | dg :: _ => some (lr.1, dg.1)

def searchDaiLabel : Str → Option (Str × Str)
  | [] => none
  | c :: cs =>
    match matchDaiLabelAt (c :: cs) with
    | some out => some out
    | none => searchDaiLabel cs

/-- Label alternation of `RE_DAI_GENERIC`
`(?:台|No\.?|NO\.?|台番|台番号|#)` (case-insensitive), as rests. -/
def genericLabelRests (cs : Str) : List Str :=
  (lit ("台".data) cs).toList.map (fun tr => tr.2) ++
  (litCI ("No.".data) cs).toList.map (fun tr => tr.2) ++
  (litCI ("No".data) cs).toList.map (fun tr => tr.2) ++
  (litCI ("NO.".data) cs).toList.map (fun tr => tr.2) ++
  (litCI ("NO".data) cs).toList.map (fun tr => tr.2) ++
  (lit ("台番".data) cs).toList.map (fun tr => tr.2) ++
  (lit ("台番号".data) cs).toList.map (fun tr => tr.2) ++
  (lit ("#".data) cs).toList.map (fun tr => tr.2)

/-- Anchored match of `RE_DAI_GENERIC`
`(?:台|No\.?|NO\.?|台番|台番号|#)\s*[:：#\- ]*\s*([0-9０-９]{2,5})`. -/
def matchDaiGenericAt (cs : Str) : Option Str :=
  firstSome (genericLabelRests cs) fun r1 =>
  firstSome (starCands isSpaceChar r1) fun r2 =>
  firstSome (starCands (fun c => c == ':' || c == '：' || c == '#' || c == '-' || c == ' ') r2) fun r3 =>
  firstSome (starCands isSpaceChar r3) fun r4 =>
  match digitGroupCands r4 with
  | [] => none
  | dg :: _ => some dg.1

def searchDaiGeneric : Str → Option Str
  | [] => none
  | c :: cs =>
    match matchDaiGenericAt (c :: cs) with
    | some g => some g
    | none => searchDaiGeneric cs

/-- Word-character test for an optional character (out of bounds counts as
non-word), used for `\b`. -/
def wordAt : Option Char → Bool
  | none => false
  | some c => isWordChar c

def headWord (cs : Str) : Bool :=
  match cs with
  | [] => false
  | c :: _ => isWordChar c

/-- Tail `\s*(?:台)?\b` of `RE_DAI_ONLYNUM` tried with full backtracking;
the preceding consumed character is always a digit (a word character). -/
def onlyNumTail (cs : Str) : Bool :=
  let run := countLeading isSpaceChar cs
  (List.range (run + 1)).any (fun i =>
    let k := run - i
    let rest := cs.drop k
    let prevW := k == 0
    (match rest with
     | c :: rest' => (c == '台' && !(headWord rest')) || (prevW != headWord rest)
     | [] => prevW != false))

/-- Anchored match of `RE_DAI_ONLYNUM`
`(?:\b|^)\s*([0-9０-９]{2,5})\s*(?:台)?\b`, given the character preceding
the current position (`none` at the string start). -/
def matchDaiOnlyNumAt (prev : Option Char) (cs : Str) : Option Str :=
  if (wordAt prev != headWord cs) || prev.isNone then
    firstSome (starCands isSpaceChar cs) fun r1 =>
    firstSome (digitGroupCands r1) fun dg =>
    if onlyNumTail dg.2 then some dg.1 else none
  else none

def searchDaiOnlyNumAux : Option Char → Str → Option Str
  | _, [] => none
  | prev, c :: cs =>
    match matchDaiOnlyNumAt prev (c :: cs) with
    | some g => some g
    | none => searchDaiOnlyNumAux (some c) cs

def searchDaiOnlyNum (l : Str) : Option Str := searchDaiOnlyNumAux none l

/-- Label alternation `(?:台|だい)` of `RE_DAI_NEAR`, as rests. -/
def nearLabelRests (cs : Str) : List Str :=
  (lit ("台".data) cs).toList.map (fun tr => tr.2) ++
  (lit ("だい".data) cs).toList.map (fun tr => tr.2)

/-- Anchored match of `RE_DAI_NEAR`
`(?:台|だい)[^0-9０-９]{0,8}([0-9０-９]{2,5})|([0-9０-９]{2,5})[^0-9０-９]{0,8}(?:台|だい)`,
returning the pair of optional groups. -/
def matchDaiNearAt (cs : Str) : Option (Option Str × Option Str) :=
  match (firstSome (nearLabelRests cs) fun r1 =>
         firstSome (boundedClassCands (fun c => !(isJpDigit c)) 8 r1) fun r2 =>
         match digitGroupCands r2 with
         | [] => none
         | dg :: _ => some dg.1) with
  | some g => some (some g, none)
  | none =>
    (firstSome (digitGroupCands cs) fun dg =>
     firstSome (boundedClassCands (fun c => !(isJpDigit c)) 8 dg.2) fun r2 =>
     match nearLabelRests r2 with
     | [] => none
     | _ :: _ => some dg.1).map (fun g => (none, some g))

def searchDaiNear : Str → Option (Option Str × Option Str)
  | [] => none
  | c :: cs =>
    match matchDaiNearAt (c :: cs) with
    | some out => some out
    | none => searchDaiNear cs

/-- First truthy group, as Python's `for grp in m.groups(): if grp: ...`. -/
def firstTruthyGroup : List (Option Str) → Option Str
  | [] => none
  | some g :: t => if g ≠ [] then some g else firstTruthyGroup t
  | none :: t => firstTruthyGroup t

/-- One pattern step of `_extract_dai_from_text`: if the pattern matched,
take the first truthy group, run `_to_dai_str`, and accept a 2–5 digit
result; otherwise fall through to the next pattern. -/
def tryDaiPat (res : Option (List (Option Str))) : Option Str :=
  match res with
  | none => none
  | some groups =>
    match to_dai_str (firstTruthyGroup groups) with
    | some g => if 2 ≤ g.length ∧ g.length ≤ 5 then some g else none
    | none => none

/-- Embedding of `_extract_dai_from_text`: normalize, then try
`RE_DAI_LABEL`, `RE_DAI_GENERIC`, `RE_DAI_ONLYNUM`, `RE_DAI_NEAR` in order. -/
def extract_dai_from_text (text : Str) : Option Str :=
  if text = [] then none
  else
    let t := normalize_text text
    match tryDaiPat ((searchDaiLabel t).map (fun g => [some g.1, some g.2])) with
    | some g => some g
    | none =>
      match tryDaiPat ((searchDaiGeneric t).map (fun g => [some g])) with
      | some g => some g
      | none =>
        match tryDaiPat ((searchDaiOnlyNum t).map (fun g => [some g])) with
        | some g => some g
        | none => tryDaiPat ((searchDaiNear t).map (fun g => [g.1, g.2]))

/-! ### Identifier extraction from URLs (`_extract_dai_from_url`) -/

/-- Anchored match of `[?&]key=([0-9]{2,5})` (key case-insensitive). -/
def matchQueryKeyAt (key : Str) (cs : Str) : Option Str :=
  match cs with
  | [] => none
  | c :: cs' =>
    if c == '?' || c == '&' then
      firstSome (seqLit ("=".data) (seqLitCI key [cs'])) fun r =>
      match asciiDigitGroupCands r with
      | [] => none
      | dg :: _ => some dg.1
    else none

def searchQueryKey (key : Str) : Str → Option Str
  | [] => none
  | c :: cs =>
    match matchQueryKeyAt key (c :: cs) with
    | some g => some g
    | none => searchQueryKey key cs

/-- Anchored match of `/([0-9]{2,5})(?:/|$)`. -/
def matchPathSegAt (cs : Str) : Option Str :=
  match cs with
  | [] => none
  | c :: cs' =>
    if c == '/' then
      firstSome (asciiDigitGroupCands cs') fun dg =>
      match dg.2 with
      | [] => some dg.1
      | d :: _ => if d == '/' then some dg.1 else none
    else none

def searchPathSeg : Str → Option Str
  | [] => none
  | c :: cs =>
    match matchPathSegAt (c :: cs) with
    | some g => some g
    | none => searchPathSeg cs

/-- Anchored match of `(?:NO\.?|No\.?|#)\s*([0-9]{2,5})` (case-insensitive). -/
def matchNoHashAt (cs : Str) : Option Str :=
  firstSome (((litCI ("NO.".data) cs).toList.map (fun tr => tr.2)) ++
             ((litCI ("NO".data) cs).toList.map (fun tr => tr.2)) ++
             ((litCI ("No.".data) cs).toList.map (fun tr => tr.2)) ++
             ((litCI ("No".data) cs).toList.map (fun tr => tr.2)) ++
             ((lit ("#".data) cs).toList.map (fun tr => tr.2))) fun r1 =>
  firstSome (starCands isSpaceChar r1) fun r2 =>
  match asciiDigitGroupCands r2 with
  | [] => none
  | dg :: _ => some dg.1

def searchNoHash : Str → Option Str
  | [] => none
  | c :: cs =>
    match matchNoHashAt (c :: cs) with
    | some g => some g
    | none => searchNoHash cs

/-- Embedding of `_extract_dai_from_url`: known query-parameter keys in
order, then a path segment, then a `No.`/`#` textual fallback. -/
def extract_dai_from_url (url : Str) : Option Str :=
  if url = [] then none
  else
    let u := normalize_text url
    match firstSome ["no", "dai", "ban", "cd_m", "cd_dai", "id", "unit", "machine"]
        (fun k => searchQueryKey (String.data k) u) with
    | some d => some d
    | none =>
      match searchPathSeg u with
      | some d => some d
      | none => searchNoHash u

/-! ### Hit records, frequency voting and resolution -/

/-- A hit record as built by the parsing layer: dict
`{"dai": Optional[str], "game": int, "kind": str}`. -/
structure Rec where
  dai : Option Str
  game : Int
  kind : Str
deriving DecidableEq, Repr

/-- Keep the first occurrence of each element (the iteration order of a
Python `dict`/`Counter` built by insertion, and the `seen`-set dedup loops
of the source). -/
def dedupFirstAux [DecidableEq α] (seen : List α) : List α → List α
  | [] => []
  | x :: t => if x ∈ seen then dedupFirstAux seen t else x :: dedupFirstAux (seen ++ [x]) t

def dedupFirst [DecidableEq α] (l : List α) : List α := dedupFirstAux [] l

/-- The list comprehension of `_freq_pick`: candidates surviving
`_to_dai_str` with a 2–5 character result. -/
def validDaiVals (cands : List (Option Str)) : List Str :=
  cands.filterMap (fun c =>
    match to_dai_str c with
    | some d => if 2 ≤ d.length ∧ d.length ≤ 5 then some d else none
    | none => none)

/-- `Counter(vals).most_common(1)[0]`: walk the distinct values in first
occurrence order keeping the first one of maximal count. -/
def pickLoop (vals : List Str) : Option Str → List Str → Option Str
  | acc, [] => acc
  | acc, k :: ks =>
    pickLoop vals
      (match acc with
       | none => some k
       | some b => if List.count b vals < List.count k vals then some k else some b) ks

/-- Embedding of `_freq_pick`. -/
def freq_pick (cands : List (Option Str)) : Option Str :=
  let vals := validDaiVals cands
  pickLoop vals none (dedupFirst vals)

/-- The resolution step of `_parse_using_ctx_and_ring` (its final loop):
records lacking an identifier get the frequency-vote fallback. -/
def resolve_records (records : List Rec) (cands : List (Option Str)) : List Rec :=
  let fallback := freq_pick cands
  records.map (fun r => if r.dai = none then { r with dai := fallback } else r)

/-! ### The candidate collectors -/

/-- Python `\d` (Unicode decimal digit) on this program's domain: ASCII and
full-width digits. -/
def isPyDigit (c : Char) : Bool := isAsciiDigit c || isFullwidthDigit c

/-- Label alternation of the first `cd_dai` pattern of
`_extract_cd_dai_candidates_from_blobs`:
`(?:cd_dai\s*=\s*|cd_dai\s*:\s*|cd_dai%5B%5D\s*=\s*|cd_dai%3D|cd_dai=)`
(case-insensitive), as rests in backtracking order. -/
def cdDai1Rests (cs : Str) : List Str :=
  seqStar isSpaceChar (seqLitCI ("=".data) (seqStar isSpaceChar (seqLitCI ("cd_dai".data) [cs]))) ++
  seqStar isSpaceChar (seqLitCI (":".data) (seqStar isSpaceChar (seqLitCI ("cd_dai".data) [cs]))) ++
  seqStar isSpaceChar (seqLitCI ("=".data) (seqStar isSpaceChar (seqLitCI ("cd_dai%5B%5D".data) [cs]))) ++
  seqLitCI ("cd_dai%3D".data) [cs] ++
  seqLitCI ("cd_dai=".data) [cs]

def matchCdDai1At (cs : Str) : Option (Str × Str) :=
  firstSome (cdDai1Rests cs) fun r =>
  match asciiDigitGroupCands r with
  | [] => none
  | dg :: _ => some (dg.1, dg.2)

/-- Label alternation of `RE_CD_DAI_ANY`
`(?:cd_dai|machineNo|unit_no|table_no|台番|台番号)` (case-insensitive). -/
def cdDaiAnyRests (cs : Str) : List Str :=
  seqLitCI ("cd_dai".data) [cs] ++ seqLitCI ("machineNo".data) [cs] ++
  seqLitCI ("unit_no".data) [cs] ++ seqLitCI ("table_no".data) [cs] ++
  seqLitCI ("台番".data) [cs] ++ seqLitCI ("台番号".data) [cs]

/-- Anchored `RE_CD_DAI_ANY` = label, lazy `\D*?`, `([0-9]{2,5})`. -/
def matchCdDaiAnyAt (cs : Str) : Option (Str × Str) :=
  firstSome (cdDaiAnyRests cs) fun r1 =>
  firstSome (lazyClassCands (fun c => !(isPyDigit c)) r1) fun r2 =>
  match asciiDigitGroupCands r2 with
  | [] => none
  | dg :: _ => some (dg.1, dg.2)

/-- Label alternation `(?:dai|unit|machine|no|台|台番|台番号)` of the DOM
harvest patterns (case-insensitive). -/
def harvestLabelRests (cs : Str) : List Str :=
  seqLitCI ("dai".data) [cs] ++ seqLitCI ("unit".data) [cs] ++
  seqLitCI ("machine".data) [cs] ++ seqLitCI ("no".data) [cs] ++
  seqLitCI ("台".data) [cs] ++ seqLitCI ("台番".data) [cs] ++
  seqLitCI ("台番号".data) [cs]

/-- Anchored harvest pattern 1: label, `[^0-9]{0,16}`, `([0-9]{2,5})`. -/
def matchHarvest1At (cs : Str) : Option (Str × Str) :=
  firstSome (harvestLabelRests cs) fun r1 =>
  firstSome (boundedClassCands (fun c => !(isAsciiDigit c)) 16 r1) fun r2 =>
  match asciiDigitGroupCands r2 with
  | [] => none
  | dg :: _ => some (dg.1, dg.2)

/-- Anchored harvest pattern 2: `([0-9]{2,5})`, `[^0-9]{0,16}`, label. -/
def matchHarvest2At (cs : Str) : Option (Str × Str) :=
  firstSome (asciiDigitGroupCands cs) fun dg =>
  firstSome (boundedClassCands (fun c => !(isAsciiDigit c)) 16 dg.2) fun r2 =>
  match harvestLabelRests r2 with
  | [] => none
  | r3 :: _ => some (dg.1, r3)

/-- Anchored harvest pattern 3:
`[?&#/](?:cd_dai|dai|no|unit|machine)[=/]*([0-9]{2,5})`. -/
def matchHarvest3At (cs : Str) : Option (Str × Str) :=
  match cs with
  | [] => none
  | c :: cs' =>
    if c == '?' || c == '&' || c == '#' || c == '/' then
      firstSome (seqLitCI ("cd_dai".data) [cs'] ++ seqLitCI ("dai".data) [cs'] ++
                 seqLitCI ("no".data) [cs'] ++ seqLitCI ("unit".data) [cs'] ++
                 seqLitCI ("machine".data) [cs']) fun r1 =>
      firstSome (starCands (fun x => x == '=' || x == '/') r1) fun r2 =>
      match asciiDigitGroupCands r2 with
      | [] => none
      | dg :: _ => some (dg.1, dg.2)
    else none

/-- Lexicographic (code point) order on strings, Python `sorted`. -/
def strLexLe : Str → Str → Bool
  | [], _ => true
  | _ :: _, [] => false
  | a :: as, b :: bs =>
    if a.toNat < b.toNat then true
    else if a.toNat = b.toNat then strLexLe as bs
    else false

theorem allLe_seqStar {p : Char → Bool} {rs : List Str} {n : Nat}
    (h : ∀ r ∈ rs, List.length r ≤ n) : ∀ r ∈ seqStar p rs, r.length ≤ n := by
  intro r hr
  simp only [seqStar, List.mem_flatMap] at hr
  obtain ⟨r0, hr0, hmem⟩ := hr
  exact le_trans (mem_starCands_length hmem) (h r0 hr0)

theorem allLe_seqLitCI {pat : Str} {rs : List Str} {n : Nat}
    (h : ∀ r ∈ rs, List.length r ≤ n) : ∀ r ∈ seqLitCI pat rs, r.length ≤ n := by
  intro r hr
  simp only [seqLitCI, List.mem_filterMap] at hr
  obtain ⟨r0, hr0, hmap⟩ := hr
  cases hl : litCI pat r0 with
  | none => rw [hl] at hmap; simp at hmap
  | some tr =>
    rw [hl] at hmap
    have hmap' : tr.2 = r := by simpa using hmap
    subst hmap'
    exact le_trans (litCI_rest_le hl) (h r0 hr0)

theorem mem_boundedClassCands_length {p : Char → Bool} {m : Nat} {cs r : Str}
    (h : r ∈ boundedClassCands p m cs) : r.length ≤ cs.length := by
  simp only [boundedClassCands, List.mem_map, List.mem_range] at h
  obtain ⟨i, _, rfl⟩ := h
  simp [List.length_drop]

theorem mem_lazyClassCands_length {p : Char → Bool} {cs r : Str}
    (h : r ∈ lazyClassCands p cs) : r.length ≤ cs.length := by
  simp only [lazyClassCands, List.mem_map, List.mem_range] at h
  obtain ⟨i, _, rfl⟩ := h
  simp [List.length_drop]

theorem mem_digitGroupCandsBy_lt {dig : Char → Bool} {cs : Str} {dg : Str × Str}
    (h : dg ∈ digitGroupCandsBy dig cs) : dg.2.length < cs.length := by
  simp only [digitGroupCandsBy] at h
  split at h
  · simp at h
  · simp only [List.mem_map, List.mem_range] at h
    obtain ⟨i, hi, rfl⟩ := h
    have := countLeading_le_length dig cs
    simp only [List.length_drop]
    omega

theorem allLe_cdDai1Rests {cs : Str} : ∀ r ∈ cdDai1Rests cs, r.length ≤ cs.length := by
  have base : ∀ r ∈ [cs], List.length r ≤ cs.length := by intro r hr; simp at hr; simp [hr]
  intro r hr
  simp only [cdDai1Rests, List.mem_append] at hr
  rcases hr with (((h | h) | h) | h) | h
  · exact allLe_seqStar (allLe_seqLitCI (allLe_seqStar (allLe_seqLitCI base))) r h
  · exact allLe_seqStar (allLe_seqLitCI (allLe_seqStar (allLe_seqLitCI base))) r h
  · exact allLe_seqStar (allLe_seqLitCI (allLe_seqStar (allLe_seqLitCI base))) r h
  · exact allLe_seqLitCI base r h
  · exact allLe_seqLitCI base r h

theorem allLe_cdDaiAnyRests {cs : Str} : ∀ r ∈ cdDaiAnyRests cs, r.length ≤ cs.length := by
  have base : ∀ r ∈ [cs], List.length r ≤ cs.length := by intro r hr; simp at hr; simp [hr]
  intro r hr
  simp only [cdDaiAnyRests, List.mem_append] at hr
  rcases hr with ((((h | h) | h) | h) | h) | h <;> exact allLe_seqLitCI base r h

theorem allLe_harvestLabelRests {cs : Str} :
    ∀ r ∈ harvestLabelRests cs, r.length ≤ cs.length := by
  have base : ∀ r ∈ [cs], List.length r ≤ cs.length := by intro r hr; simp at hr; simp [hr]
  intro r hr
  simp only [harvestLabelRests, List.mem_append] at hr
  rcases hr with (((((h | h) | h) | h) | h) | h) | h <;> exact allLe_seqLitCI base r h

theorem matchCdDai1At_lt : ∀ cs out, matchCdDai1At cs = some out → out.2.length < cs.length := by
  intro cs out h
  obtain ⟨r, hr, h⟩ := firstSome_eq_some h
  cases hg : asciiDigitGroupCands r with
  | nil => rw [hg] at h; simp at h
  | cons dg t =>
    rw [hg] at h
    have hdg : dg ∈ asciiDigitGroupCands r := by rw [hg]; simp
    have h1 := mem_digitGroupCandsBy_lt hdg
    have h2 := allLe_cdDai1Rests r hr
    cases h with
    | refl => simp only; omega

theorem matchCdDaiAnyAt_lt : ∀ cs out, matchCdDaiAnyAt cs = some out → out.2.length < cs.length := by
  intro cs out h
  obtain ⟨r1, hr1, h⟩ := firstSome_eq_some h
  obtain ⟨r2, hr2, h⟩ := firstSome_eq_some h
  cases hg : asciiDigitGroupCands r2 with
  | nil => rw [hg] at h; simp at h
  | cons dg t =>
    rw [hg] at h
    have hdg : dg ∈ asciiDigitGroupCands r2 := by rw [hg]; simp
    have h1 := mem_digitGroupCandsBy_lt hdg
    have h2 := mem_lazyClassCands_length hr2
    have h3 := allLe_cdDaiAnyRests r1 hr1
    cases h with
    | refl => simp only; omega

theorem matchHarvest1At_lt : ∀ cs out, matchHarvest1At cs = some out → out.2.length < cs.length := by
  intro cs out h
  obtain ⟨r1, hr1, h⟩ := firstSome_eq_some h
  obtain ⟨r2, hr2, h⟩ := firstSome_eq_some h
  cases hg : asciiDigitGroupCands r2 with
  | nil => rw [hg] at h; simp at h
  | cons dg t =>
    rw [hg] at h
    have hdg : dg ∈ asciiDigitGroupCands r2 := by rw [hg]; simp
    have h1 := mem_digitGroupCandsBy_lt hdg
    have h2 := mem_boundedClassCands_length hr2
    have h3 := allLe_harvestLabelRests r1 hr1
    cases h with
    | refl => simp only; omega

theorem matchHarvest2At_lt : ∀ cs out, matchHarvest2At cs = some out → out.2.length < cs.length := by
  intro cs out h
  obtain ⟨dg, hdg, h⟩ := firstSome_eq_some h
  obtain ⟨r2, hr2, h⟩ := firstSome_eq_some h
  cases hg : harvestLabelRests r2 with
  | nil => rw [hg] at h; simp at h
  | cons r3 t =>
    rw [hg] at h
    have hr3 : r3 ∈ harvestLabelRests r2 := by rw [hg]; simp
    have h1 := mem_digitGroupCandsBy_lt hdg
    have h2 := mem_boundedClassCands_length hr2
    have h3 := allLe_harvestLabelRests r3 hr3
    cases h with
    | refl => simp only; omega

theorem matchHarvest3At_lt : ∀ cs out, matchHarvest3At cs = some out → out.2.length < cs.length := by
  intro cs out h
  cases cs with
  | nil => simp [matchHarvest3At] at h
  | cons c cs' =>
    simp only [matchHarvest3At] at h
    split at h
    · obtain ⟨r1, hr1, h⟩ := firstSome_eq_some h
      obtain ⟨r2, hr2, h⟩ := firstSome_eq_some h
      cases hg : asciiDigitGroupCands r2 with
      | nil => rw [hg] at h; simp at h
      | cons dg t =>
        rw [hg] at h
        have hdg : dg ∈ asciiDigitGroupCands r2 := by rw [hg]; simp
        have h1 := mem_digitGroupCandsBy_lt hdg
        have h2 := mem_starCands_length hr2
        have base : ∀ r ∈ [cs'], List.length r ≤ cs'.length := by
          intro r hr; simp at hr; simp [hr]
        have h3 : r1.length ≤ cs'.length := by
          simp only [List.mem_append] at hr1
          rcases hr1 with (((h4 | h4) | h4) | h4) | h4 <;> exact allLe_seqLitCI base r1 h4
        cases h with
        | refl => simp only [List.length_cons]; omega
    · simp at h

/-- Embedding of `_extract_cd_dai_candidates_from_blobs` (the pure part:
the blobs themselves come from the browser): both `cd_dai` patterns over
every blob, collected as a set, filtered to 2–5 digits and sorted. -/
def extract_cd_dai_candidates (blobs : List Str) : List Str :=
  let cands := blobs.flatMap (fun blob =>
    finditerG matchCdDai1At blob ++
    finditerG matchCdDaiAnyAt blob)
  List.insertionSort (fun a b => strLexLe a b = true)
    ((dedupFirst cands).filter (fun d => 2 ≤ d.length && d.length ≤ 5))

/-- Embedding of `_harvest_dai_candidates_from_dom` (the pure part: the
attribute-bag strings come from the browser): NFKC-fold each bag, run the
three harvest patterns, collect as a set, filter to 2–5 digits, sort. -/
def harvest_dai_candidates (attrBags : List Str) : List Str :=
  let cands := attrBags.flatMap (fun s =>
    let sn := nfkcStr s
    finditerG matchHarvest1At sn ++
    finditerG matchHarvest2At sn ++
    finditerG matchHarvest3At sn)
  List.insertionSort (fun a b => strLexLe a b = true)
    ((dedupFirst cands).filter (fun d => 2 ≤ d.length && d.length ≤ 5))

/-- Existence test `RE_ONCLICK_DAI.search`
(`(?:dai|no|ban|cd_dai|unit|machine)\D{0,3}([0-9]{2,5})`, case-insensitive). -/
def matchOnclickDaiAt (cs : Str) : Option Str :=
  firstSome (seqLitCI ("dai".data) [cs] ++ seqLitCI ("no".data) [cs] ++
             seqLitCI ("ban".data) [cs] ++ seqLitCI ("cd_dai".data) [cs] ++
             seqLitCI ("unit".data) [cs] ++ seqLitCI ("machine".data) [cs]) fun r1 =>
  firstSome (boundedClassCands (fun c => !(isPyDigit c)) 3 r1) fun r2 =>
  match asciiDigitGroupCands r2 with
  | [] => none
  | dg :: _ => some dg.1

def searchOnclickDai : Str → Bool
  | [] => false
  | c :: cs =>
    match matchOnclickDaiAt (c :: cs) with
    | some _ => true
    | none => searchOnclickDai cs

/-! ### Line splitting and the text parse path -/

/-- `[ 　]` of the split pattern. -/
def isSepSpace (c : Char) : Bool := c == ' ' || decide (c.toNat = 0x3000)

/-- `[\r\n]` of the split pattern. -/
def isSepNl (c : Char) : Bool := c == '\r' || c == '\n'

/-- Candidates of a greedy `p+` (at least one character). -/
def plusCands (p : Char → Bool) (cs : Str) : List Str :=
  let run := countLeading p cs
  (List.range run).map (fun i => cs.drop (run - i))

/-- Anchored match of the separator `[ 　]*[\r\n]+[ 　]*|(?<=G)\s`
of the line split in `_parse_hit_records_from_html`; `prev` is the
character before the current position (for the look-behind). -/
def matchSepAt (prev : Option Char) (cs : Str) : Option Str :=
  match (firstSome (starCands isSepSpace cs) fun r1 =>
         firstSome (plusCands isSepNl r1) fun r2 =>
         match starCands isSepSpace r2 with
         | [] => none
         | r3 :: _ => some r3) with
  | some r => some r
  | none =>
    match cs with
    | c :: rest => if prev == some 'G' && isSpaceChar c then some rest else none
    | [] => none

theorem mem_plusCands_lt {p : Char → Bool} {cs r : Str}
    (h : r ∈ plusCands p cs) : r.length < cs.length := by
  simp only [plusCands, List.mem_map, List.mem_range] at h
  obtain ⟨i, hi, rfl⟩ := h
  have := countLeading_le_length p cs
  simp only [List.length_drop]
  omega

theorem matchSepAt_lt {prev : Option Char} {cs r : Str}
    (h : matchSepAt prev cs = some r) : r.length < cs.length := by
  simp only [matchSepAt] at h
  cases halt : (firstSome (starCands isSepSpace cs) fun r1 =>
      firstSome (plusCands isSepNl r1) fun r2 =>
      match starCands isSepSpace r2 with
      | [] => none
      | r3 :: _ => some r3) with
  | some r0 =>
    rw [halt] at h
    obtain ⟨r1, hr1, h1⟩ := firstSome_eq_some halt
    obtain ⟨r2, hr2, h2⟩ := firstSome_eq_some h1
    cases hst : starCands isSepSpace r2 with
    | nil => rw [hst] at h2; simp at h2
    | cons r3 t =>
      rw [hst] at h2
      have hr3 : r3 ∈ starCands isSepSpace r2 := by rw [hst]; simp
      have e1 := mem_starCands_length hr1
      have e2 := mem_plusCands_lt hr2
      have e3 := mem_starCands_length hr3
      cases h2 with
      | refl =>
        cases h with
        | refl => omega
  | none =>
    rw [halt] at h
    cases cs with
    | nil => simp at h
    | cons c rest =>
      simp only at h
      split at h
      · cases h with
        | refl => simp
      · exact absurd h (by simp)

/-- `re.split(r"[ 　]*[\r\n]+[ 　]*|(?<=G)\s", full)`.  After a
separator the previous character is one of its space/newline characters,
which is never `G`, so it is represented by a space. -/
def pySplitFuel : Nat → Option Char → Str → Str → List Str
  | _, _, acc, [] => [acc.reverse]
  | 0, _, acc, _ :: _ => [acc.reverse]
  | fuel + 1, prev, acc, c :: cs =>
    match matchSepAt prev (c :: cs) with
    | some rest => acc.reverse :: pySplitFuel fuel (some ' ') [] rest
    | none => pySplitFuel fuel (some c) (c :: acc) cs

def pySplitLines (l : Str) : List Str := pySplitFuel l.length none [] l

/-- `sep.join(xs)`. -/
def joinSep (sep : Str) : List Str → Str
  | [] => []
  | [x] => x
  | x :: y :: t => x ++ sep ++ joinSep sep (y :: t)

/-- Python `s.endswith(t)`. -/
def strEndsWith (s t : Str) : Bool := strPrefixAt t.reverse s.reverse

/-- What the HTML parser (BeautifulSoup, an external collaborator like the
browser) exposes of one markup blob to `_parse_hit_records_from_html`: the
whitespace-joined page text `soup.get_text(" ", strip=True)`, the raw
`th,td` cell texts of every `tr` of every `table` (in document order; the
cells are normalized by the caller), and the texts of the elements found
by the ten header selectors, in selector order (selectors without a match
contribute nothing).  A plain-text blob (such as `innerText` or a text
response body) parses to a document with no tables and no header elements
whose page text is the blob itself. -/
structure HtmlDoc where
  pageText : Str
  tables : List (List (List Str))
  headerTexts : List Str
deriving DecidableEq, Repr

/-- Embedding of `_parse_hit_records_from_html`: the page-level identifier
candidate, the table-row loop (normalized cells joined by a space, one
record per hit with the row's identifier), the per-line fallback when the
tables produced no record, the header-selector candidates, and the final
truthiness filter on the candidate list. -/
def parse_hit_records_from_html (doc : HtmlDoc) : List Rec × List Str :=
  let dai0 : List Str := match extract_dai_from_text doc.pageText with
    | some d => [d]
    | none => []
  let tstate := doc.tables.foldl
    (fun (st : List Rec × List Str) tbl =>
      tbl.foldl
        (fun (st : List Rec × List Str) tr =>
          let cells := tr.map normalize_text
          if cells.isEmpty then st
          else
            let row_text := joinSep [' '] cells
            let row_dai := extract_dai_from_text row_text
            (st.1 ++ (scan_line_for_hits row_text).map (fun gk =>
                { dai := to_dai_str row_dai, game := gk.1, kind := gk.2 }),
             match row_dai with
             | some d => st.2 ++ [d]
             | none => st.2))
        st)
    ([], dai0)
  let lstate :=
    if tstate.1.isEmpty then
      (pySplitLines (normalize_text doc.pageText)).foldl
        (fun (st : List Rec × List Str) piece =>
          let line := normalize_text piece
          if line = [] then st
          else
            let row_dai := extract_dai_from_text line
            (st.1 ++ (scan_line_for_hits line).map (fun gk =>
                { dai := to_dai_str row_dai, game := gk.1, kind := gk.2 }),
             match row_dai with
             | some d => st.2 ++ [d]
             | none => st.2))
        tstate
    else tstate
  let cands := doc.headerTexts.foldl
    (fun (cs : List Str) t =>
      match extract_dai_from_text t with
      | some d => cs ++ [d]
      | none => cs)
    lstate.2
  (lstate.1, cands.filter (fun d => !(d.isEmpty)))

/-! ### JSON bodies (`_parse_hit_records_from_json_text`)

A decoded JSON document, as `json.loads` hands it to the `walk` closure.
Numeric literals are modelled as integers: a non-integral JSON number
stringifies with a decimal point, so `_num_to_int` always rejects it, and
as an identifier source it behaves like the digit string `jstr` already
covers.  Object keys are the unique post-`json.loads` keys, and the
modelled string values contain no quote or backslash characters (whose
Python `repr` would add escapes). -/

mutual
inductive JVal : Type where
  | jnull
  | jbool (b : Bool)
  | jint (n : Int)
  | jstr (s : Str)
  | jarr (elems : JArr)
  | jobj (fields : JObj)
inductive JArr : Type where
  | anil
  | acons (v : JVal) (t : JArr)
inductive JObj : Type where
  | onil
  | ocons (k : Str) (v : JVal) (t : JObj)
end

/-- Python `str.lower` on the characters the key tables contain (ASCII
letters; everything else unchanged). -/
def lowerChar (c : Char) : Char :=
  if 65 ≤ c.toNat ∧ c.toNat ≤ 90 then Char.ofNat (c.toNat + 32) else c

def lowerStr (l : Str) : Str := l.map lowerChar

/-- `{k.lower(): k for k in obj.keys()}` followed by `obj[keys[key]]`: the
comprehension keeps the last original key per lowered form, and the dict
lookup then returns that field's value. -/
def jLookupLower : JObj → Str → Option JVal
  | .onil, _ => none
  | .ocons k v t, key =>
    match jLookupLower t key with
    | some w => some w
    | none => if lowerStr k == key then some v else none

/-- `next((obj[keys[k]] for k in names if k in keys), None)`: the value of
the first name present (which may itself be a JSON `null`). -/
def jFindVal (fs : JObj) : List Str → Option JVal
  | [] => none
  | k :: rest =>
    match jLookupLower fs k with
    | some v => some v
    | none => jFindVal fs rest

/-- The `is not None` guard applied to a found value: a JSON `null`
decodes to Python `None` and counts as absent. -/
def denull : Option JVal → Option JVal
  | some .jnull => none
  | o => o

def natToStrAux : Nat → Nat → Str
  | 0, _ => []
  | _ + 1, 0 => []
  | fuel + 1, n + 1 =>
    natToStrAux fuel ((n + 1) / 10) ++ [Char.ofNat (48 + (n + 1) % 10)]

/-- Decimal rendering of a natural number (`str` on a non-negative int). -/
def natToStr (n : Nat) : Str := if n = 0 then ['0'] else natToStrAux n n

def intToStr : Int → Str
  | .ofNat n => natToStr n
  | .negSucc m => '-' :: natToStr (m + 1)

mutual
/-- Python `repr` on the modelled JSON values (`str` delegates to it for
every non-string value). -/
def pyRepr : JVal → Str
  | .jnull => "None".data
  | .jbool true => "True".data
  | .jbool false => "False".data
  | .jint n => intToStr n
  | .jstr s => '\'' :: (s ++ ['\''])
  | .jarr es => '[' :: (joinSep (", ".data) (pyReprArr es) ++ [']'])
  | .jobj fs => '\x7b' :: (joinSep (", ".data) (pyReprObj fs) ++ ['\x7d'])
def pyReprArr : JArr → List Str
  | .anil => []
  | .acons v t => pyRepr v :: pyReprArr t
def pyReprObj : JObj → List Str
  | .onil => []
  | .ocons k v t =>
    (('\'' :: (k ++ ['\''])) ++ (": ".data) ++ pyRepr v) :: pyReprObj t
end

/-- Python `str(...)` as the walk applies it to key values. -/
def pyStr : JVal → Str
  | .jstr s => s
  | v => pyRepr v

def gKeyNames : List Str :=
  ["g".data, "game".data, "spin".data, "games".data, "games_count".data,
   "total_games".data]

def kKeyNames : List Str :=
  ["k".data, "kind".data, "type".data, "bonus".data, "label".data, "name".data]

/-- The identifier key names; the last entry `machineNo` is compared
against lowered keys without being lowered itself, exactly as in the
source, and therefore never matches. -/
def dKeyNames : List Str :=
  ["dai".data, "no".data, "number".data, "machine".data, "台番".data,
   "台番号".data, "machine_no".data, "unit_no".data, "table_no".data,
   "unit".data, "machineNo".data]

mutual
/-- The `walk` closure of `_parse_hit_records_from_json_text`: a dict
emits its identifier candidate and, given co-located game and kind keys
whose game value parses, one record, then recurses into every value in
field order; a list recurses; a string is normalized and scanned like a
text line; other scalars contribute nothing. -/
def jWalk : JVal → List Rec × List Str
  | .jobj fs =>
    let gkey := denull (jFindVal fs gKeyNames)
    let kkey := denull (jFindVal fs kKeyNames)
    let dkey := denull (jFindVal fs dKeyNames)
    let cand1 : List Str := match dkey with
      | some dv =>
        (match to_dai_str (some (pyStr dv)) with
         | some d => if d.isEmpty then [] else [d]
         | none => [])
      | none => []
    let rec1 : List Rec := match gkey, kkey with
      | some gv, some kv =>
        (match num_to_int (pyStr gv) with
         | some gi =>
           [{ dai := match dkey with
                     | some dv => to_dai_str (some (pyStr dv))
                     | none => none,
              game := gi,
              kind := kind_to_std (pyStr kv) }]
         | none => [])
      | _, _ => []
    let rest := jWalkObj fs
    (rec1 ++ rest.1, cand1 ++ rest.2)
  | .jarr es => jWalkArr es
  | .jstr s =>
    let line := normalize_text s
    let row_dai := extract_dai_from_text line
    ((scan_line_for_hits line).map (fun gk =>
        { dai := to_dai_str row_dai, game := gk.1, kind := gk.2 }),
     match row_dai with
     | some d => [d]
     | none => [])
  | _ => ([], [])
def jWalkArr : JArr → List Rec × List Str
  | .anil => ([], [])
  | .acons v t =>
    let a := jWalk v
    let b := jWalkArr t
    (a.1 ++ b.1, a.2 ++ b.2)
def jWalkObj : JObj → List Rec × List Str
  | .onil => ([], [])
  | .ocons _ v t =>
    let a := jWalk v
    let b := jWalkObj t
    (a.1 ++ b.1, a.2 ++ b.2)
end

/-- Embedding of `_parse_hit_records_from_json_text`: walk the decoded
document; when `json.loads` fails, process the `[\r\n]+`-split of the
normalized text — normalization has already collapsed every newline run,
so the split yields exactly the one normalized line (processed without the
empty-line skip of the HTML path). -/
def parse_hit_records_from_json (j : Option JVal) (txt : Str) :
    List Rec × List Str :=
  match j with
  | some v => jWalk v
  | none =>
    let line := normalize_text txt
    let row_dai := extract_dai_from_text line
    ((scan_line_for_hits line).map (fun gk =>
        { dai := to_dai_str row_dai, game := gk.1, kind := gk.2 }),
     match row_dai with
     | some d => [d]
     | none => [])

/-- One captured network response.  The listener admits json, html, xml,
csv, javascript and plain-text content types (plus keyword-matched URLs)
and stores the lowered content type; `_parse_using_ctx_and_ring` then
decodes the body (an empty `bodyText` stands for an undecodable or empty
body, which the source skips) and hands it to `json.loads` and
BeautifulSoup — two external decoders whose outcomes (`bodyJson`,
`bodyDoc`) are collaborator data like the browser's. -/
structure RingItem where
  url : Str
  ct : Str
  bodyText : Str
  bodyJson : Option JVal
  bodyDoc : HtmlDoc

/-- Embedding of `_parse_using_ctx_and_ring`: parse every context blob as
HTML, then every ring snapshot item (harvesting the href hint and
response-URL identifier candidates, then parsing the body as JSON when the
content type contains "json" or the URL ends in ".json", as HTML
otherwise), then fill unresolved records with the frequency vote over all
candidates of this batch. -/
def parse_using_ctx_and_ring (blobs : List HtmlDoc) (ringItems : List RingItem)
    (hrefHint : Option Str) : List Rec :=
  let st1 := blobs.foldl
    (fun (st : List Rec × List Str) blob =>
      let rc := parse_hit_records_from_html blob
      (st.1 ++ rc.1, st.2 ++ rc.2)) ([], [])
  let st2 := ringItems.foldl
    (fun (st : List Rec × List Str) item =>
      let cands1 : List Str := match hrefHint with
        | some hh => (match extract_dai_from_url hh with | some d => [d] | none => [])
        | none => []
      let cands2 : List Str := match extract_dai_from_url item.url with
        | some d => [d]
        | none => []
      if item.bodyText.isEmpty then (st.1, st.2 ++ cands1 ++ cands2)
      else
        let rc :=
          if strContains item.ct ("json".data) ||
             strEndsWith item.url (".json".data) then
            parse_hit_records_from_json item.bodyJson item.bodyText
          else parse_hit_records_from_html item.bodyDoc
        (st.1 ++ rc.1, st.2 ++ cands1 ++ cands2 ++ rc.2)) st1
  resolve_records st2.1 (st2.2.map some)

/-! ### Response capture ring (`RespRing`) -/

structure ResponseSample where
  url : Str
  body : Str
  ct : Option Str
deriving DecidableEq, Repr

/-- Embedding of `RespRing`: `deque(maxlen=capacity)` plus the push
counter.  The best-effort disk mirroring of `push` is excluded I/O whose
failure is swallowed; it does not touch the buffer. -/
structure RespRing where
  capacity : Nat
  buf : List ResponseSample
  counter : Nat
deriving DecidableEq, Repr

def mkRing (capacity : Nat) : RespRing := ⟨capacity, [], 0⟩

/-- `push`: append, evicting from the left beyond `capacity`
(`deque(maxlen=capacity)` semantics). -/
def RespRing.push (rg : RespRing) (s : ResponseSample) : RespRing :=
  let b := rg.buf ++ [s]
  { rg with buf := b.drop (b.length - rg.capacity), counter := rg.counter + 1 }

/-- `snapshot_and_clear`: return everything buffered and empty the buffer. -/
def RespRing.snapshot_and_clear (rg : RespRing) : List ResponseSample × RespRing :=
  (rg.buf, { rg with buf := [] })

def RespRing.pushAll (rg : RespRing) (xs : List ResponseSample) : RespRing :=
  xs.foldl RespRing.push rg

/-! ### The fallback cascade (`_drill_dai_links`)

The browser is an external collaborator; a `DrillEnv` provides, for each of
the cascade's interaction points, the data the browser hands back (link
items, DOM attribute bags, page text blobs, and for each visit the page
texts and captured responses that `_visit_and_parse_current` would see).
Everything the Python then does with that data is embedded. -/

structure LinkItem where
  h : Str
  d : Str
  oc : Str
deriving DecidableEq, Repr

/-- What one navigation/visit lets `_parse_using_ctx_and_ring` see:
the parsed views of the page/frame content blobs (`_gather_all_htmls`
feeds each blob to BeautifulSoup) and the ring snapshot taken during the
visit. -/
structure VisitOutcome where
  blobs : List HtmlDoc
  ring : List RingItem

structure DrillEnv where
  linkItems : List LinkItem
  linkItemsRetry : List LinkItem
  visitHref : Str → VisitOutcome
  visitDaiText : Str → VisitOutcome
  attrBags : List Str
  visitV06 : Str → Option VisitOutcome
  probe : VisitOutcome
  blobsT3 : List Str
  blobsT4 : List Str
  current : VisitOutcome
  currentRetry : VisitOutcome

def parseVisit (v : VisitOutcome) : List Rec :=
  parse_using_ctx_and_ring v.blobs v.ring none

/-- `len(xs) if per_card_limit is None else min(len(xs), int(per_card_limit))`. -/
def limitFor (limit : Option Nat) (n : Nat) : Nat :=
  match limit with
  | none => n
  | some l => min n l

/-- `v06_links + [x for x in link_items if x not in v06_links]`. -/
def orderLinkItems (items : List LinkItem) : List LinkItem :=
  let v06 := items.filter (fun it =>
    strContains it.h ("nc-v06-".data) || strContains it.h ("cd_dai=".data))
  v06 ++ items.filter (fun it => !(v06.contains it))

/-- Tier 1 (direct links): visit each ordered item, skipping visited hrefs
and identifiers; returns (visited hrefs, visited dais, records). -/
def tier1Loop (env : DrillEnv) :
    List LinkItem → List Str → List Str → List Rec → List Str × List Str × List Rec
  | [], vh, vd, acc => (vh, vd, acc)
  | it :: rest, vh, vd, acc =>
    let href := pyStrip it.h
    let data_dai := pyStrip it.d
    let onclick := pyStrip it.oc
    let daiHint : Option Str :=
      match to_dai_str (some data_dai) with
      | some d => some d
      | none => if searchOnclickDai onclick then to_dai_str (some onclick) else none
    if !href.isEmpty && vh.contains href then
      tier1Loop env rest vh vd acc
    else if daiHint.any (fun d => vd.contains d) then
      tier1Loop env rest vh vd acc
    else if !href.isEmpty then
      tier1Loop env rest (vh ++ [href]) vd (acc ++ parseVisit (env.visitHref href))
    else
      match daiHint with
      | some d =>
        if vd.contains d then tier1Loop env rest vh vd acc
        else tier1Loop env rest vh (vd ++ [d]) (acc ++ parseVisit (env.visitDaiText d))
      | none => tier1Loop env rest vh vd acc

/-- Tiers 2 and 4 (canonical v06 visits keyed by identifier, skipping and
recording visited identifiers; a failed navigation skips the candidate). -/
def v06Loop (env : DrillEnv) : List Str → List Str → List Rec → List Str × List Rec
  | [], vd, acc => (vd, acc)
  | d :: rest, vd, acc =>
    if vd.contains d then v06Loop env rest vd acc
    else
      match env.visitV06 d with
      | none => v06Loop env rest vd acc
      | some v => v06Loop env rest (vd ++ [d]) (acc ++ parseVisit v)

/-- Tier 3's v06 loop: candidates may be `None` (skipped); visited
identifiers are neither consulted nor recorded here (as in the source). -/
def tier3Loop (env : DrillEnv) : List (Option Str) → List Rec → List Rec
  | [], acc => acc
  | none :: rest, acc => tier3Loop env rest acc
  | some d :: rest, acc =>
    if d.isEmpty then tier3Loop env rest acc
    else
      match env.visitV06 d with
      | none => tier3Loop env rest acc
      | some v => tier3Loop env rest (acc ++ parseVisit v)

structure DrillResult where
  records : List Rec
  t1records : List Rec
  domDaiList : List Str
  tier3ran : Bool
  tier4ran : Bool

/-! The body of `_drill_dai_links`, split into one named definition per
intermediate value of the Python function (`tier3ran`/`tier4ran` record
whether the tier-3/tier-4 bodies were entered).  Python-set iteration
orders are determinized to first-insertion order. -/

/-- `link_items`, re-collected after `_open_machine_data_if_present` when
the first collection is empty. -/
def drillItems (env : DrillEnv) : List LinkItem :=
  if env.linkItems.isEmpty then env.linkItemsRetry else env.linkItems

def drillOrdered (env : DrillEnv) : List LinkItem := orderLinkItems (drillItems env)

/-- Tier 1-a: walk the ordered link items up to the per-card limit. -/
def drillT1 (env : DrillEnv) (limit : Option Nat) : List Str × List Str × List Rec :=
  tier1Loop env ((drillOrdered env).take (limitFor limit (drillOrdered env).length)) [] [] []

/-- `dom_dai_list` of tier 2. -/
def drillDom (env : DrillEnv) : List Str := harvest_dai_candidates env.attrBags

/-- Tier 2: v06 visits for the DOM-harvested candidates. -/
def drillT2 (env : DrillEnv) (limit : Option Nat) : List Str × List Rec :=
  v06Loop env ((drillDom env).take (limitFor limit (drillDom env).length))
    (drillT1 env limit).2.1 (drillT1 env limit).2.2

def drillRec12 (env : DrillEnv) (limit : Option Nat) : List Rec := (drillT2 env limit).2

/-- The tier-3 entry condition `(not dom_dai_list) and (len(out_records) == 0)`. -/
def drillT3Guard (env : DrillEnv) (limit : Option Nat) : Bool :=
  (drillDom env).isEmpty && (drillRec12 env limit).isEmpty

/-- The tier-3 body: probe, parse, and v06 visits for the harvested
probe candidates. -/
def drillT3Body (env : DrillEnv) (limit : Option Nat) : List Rec :=
  let rec12 := drillRec12 env limit
  let probeRecs := parseVisit env.probe
  if probeRecs.isEmpty then rec12
  else
    let withProbe := rec12 ++ probeRecs
    let pc0 : List (Option Str) := dedupFirst (probeRecs.filterMap (fun r =>
      match r.dai with
      | some s => if s.isEmpty then none else some (to_dai_str (some s))
      | none => none))
    let pcands : List (Option Str) :=
      if pc0.isEmpty then (extract_cd_dai_candidates env.blobsT3).map some else pc0
    if pcands.isEmpty then withProbe
    else tier3Loop env (pcands.take (limitFor limit pcands.length)) withProbe

def drillRec3 (env : DrillEnv) (limit : Option Nat) : List Rec :=
  if drillT3Guard env limit then drillT3Body env limit else drillRec12 env limit

/-- The tier-4 entry condition `per_card_limit is None or len(out_records) == 0`. -/
def drillT4Guard (env : DrillEnv) (limit : Option Nat) : Bool :=
  limit.isNone || (drillRec3 env limit).isEmpty

/-- The tier-4 body: v06 visits for the free-text `cd_dai` candidates. -/
def drillT4Body (env : DrillEnv) (limit : Option Nat) : List Rec :=
  let cdList := extract_cd_dai_candidates env.blobsT4
  if cdList.isEmpty then drillRec3 env limit
  else (v06Loop env (cdList.take (limitFor limit cdList.length))
        (drillT2 env limit).1 (drillRec3 env limit)).2

def drillRec4 (env : DrillEnv) (limit : Option Nat) : List Rec :=
  if drillT4Guard env limit then drillT4Body env limit else drillRec3 env limit

/-- Tier 5: parse the current page when everything else came back empty. -/
def drillRec5 (env : DrillEnv) (limit : Option Nat) : List Rec :=
  if (drillRec4 env limit).isEmpty then drillRec4 env limit ++ parseVisit env.current
  else drillRec4 env limit

/-- Embedding of `_drill_dai_links`. -/
def drill_dai_links (env : DrillEnv) (per_card_limit : Option Nat) : DrillResult :=
  { records := drillRec5 env per_card_limit,
    t1records := (drillT1 env per_card_limit).2.2,
    domDaiList := drillDom env,
    tier3ran := drillT3Guard env per_card_limit,
    tier4ran := drillT4Guard env per_card_limit }

/-! ### Card rows and the aggregator -/

/-- A detail row as assembled by `_collect_from_v13` (the `source_url` and
`scraped_at` bookkeeping columns are excluded I/O). -/
structure Row where
  dai : Option Str
  game : Int
  kind : Str
deriving DecidableEq, Repr

/-- Row building of `_collect_from_v13`: identifier re-normalized through
`_to_dai_str`, kind collapsed to BIG iff its upper-case form starts with
`B` (every record of the parse layer carries a game and a kind, so the
`None`-skip guard of the source never fires). -/
def rows_of_records (recs : List Rec) : List Row :=
  recs.map (fun r =>
    { dai := to_dai_str r.dai,
      game := r.game,
      kind := match upperStr r.kind with
              | 'B' :: _ => "BIG".data
              | _ => "REG".data })

/-- The per-card record collection of `_collect_from_v13`: the drill
cascade, with one more parse of the current page if it came back empty. -/
def collect_card_records (env : DrillEnv) (per_card_limit : Option Nat) : List Rec :=
  let recs := (drill_dai_links env per_card_limit).records
  if recs.isEmpty then parseVisit env.currentRetry else recs

/-- Column normalization of `main`: `台番` re-normalized through
`_to_dai_str` (absent stays absent), `kind` upper-cased with the
full-width replacements `ＢＩＧ→BIG`, `ＲＥＧ→REG`. -/
def normalize_row (r : Row) : Row :=
  { dai := match r.dai with
           | none => none
           | some s => to_dai_str (some s),
    game := r.game,
    kind :=
      let u := upperStr r.kind
      if u = ("ＢＩＧ".data) then "BIG".data
      else if u = ("ＲＥＧ".data) then "REG".data
      else u }

def detailKey (r : Row) : Option Str × Int × Str := (r.dai, r.game, r.kind)

/-- `drop_duplicates(subset=["台番","game","kind"])`: keep the first row of
each key. -/
def dedupByKeyAux (seen : List (Option Str × Int × Str)) : List Row → List Row
  | [] => []
  | r :: t =>
    if detailKey r ∈ seen then dedupByKeyAux seen t
    else r :: dedupByKeyAux (seen ++ [detailKey r]) t

def dedupByKey (l : List Row) : List Row := dedupByKeyAux [] l

/-- The sort key of `sort_values(["台番","game","kind"], na_position="last")`:
absent identifiers sort last, then string, game count and kind ascending. -/
def keyEmb (r : Row) :
    Lex (Bool × Lex (Str × Lex (Int × Str))) :=
  toLex (r.dai.isNone, toLex (r.dai.getD [], toLex (r.game, r.kind)))

def rowLe (a b : Row) : Prop := keyEmb a ≤ keyEmb b

instance : DecidableRel rowLe := fun a b => by unfold rowLe; infer_instance

instance : IsTotal Row rowLe := ⟨fun a b => le_total (keyEmb a) (keyEmb b)⟩

instance : IsTrans Row rowLe := ⟨fun _ _ _ hab hbc => le_trans hab hbc⟩

/-- The detail output of `main`: normalize columns, drop duplicate
`(台番, game, kind)` keys, sort with absent identifiers last. -/
def detail_rows (rows : List Row) : List Row :=
  List.insertionSort rowLe (dedupByKey (rows.map normalize_row))

/-! ### Supporting lemmas -/

theorem countLeading_cons_false {p : Char → Bool} {c : Char} (cs : Str)
    (h : p c = false) : countLeading p (c :: cs) = 0 := by
  simp [countLeading, h]

theorem countLeading_append_all {p : Char → Bool} {xs : Str} (ys : Str)
    (h : ∀ c ∈ xs, p c = true) :
    countLeading p (xs ++ ys) = xs.length + countLeading p ys := by
  induction xs with
  | nil => simp
  | cons c cs ih =>
    have hc : p c = true := h c (by simp)
    simp only [List.cons_append, countLeading, hc, if_true, List.length_cons]
    rw [List.append_eq, ih (fun x hx => h x (by simp [hx]))]
    omega

theorem pushAll_capacity (rg : RespRing) (xs : List ResponseSample) :
    (rg.pushAll xs).capacity = rg.capacity := by
  induction xs generalizing rg with
  | nil => rfl
  | cons x xs ih =>
    have := ih (rg.push x)
    simpa [RespRing.pushAll, RespRing.push] using this

theorem lastN_append_lastN {α : Type} (c : Nat) (l t : List α) :
    ((l.drop (l.length - c)) ++ t).drop (((l.drop (l.length - c)) ++ t).length - c)
      = (l ++ t).drop ((l ++ t).length - c) := by
  rw [← List.drop_append_of_le_length (Nat.sub_le l.length c)]
  rw [List.drop_drop]
  congr 1
  simp only [List.length_append, List.length_drop]
  omega

theorem pushAll_buf (c : Nat) (xs : List ResponseSample) :
    ∀ (k : Nat) (b : List ResponseSample), b.length ≤ c →
      (RespRing.pushAll ⟨c, b, k⟩ xs).buf = (b ++ xs).drop ((b ++ xs).length - c) := by
  induction xs with
  | nil =>
    intro k b hb
    simp only [RespRing.pushAll, List.foldl_nil, List.append_nil]
    rw [show b.length - c = 0 from by omega, List.drop_zero]
  | cons x xs ih =>
    intro k b hb
    show (RespRing.pushAll (RespRing.push ⟨c, b, k⟩ x) xs).buf = _
    have hpush : RespRing.push ⟨c, b, k⟩ x
        = ⟨c, (b ++ [x]).drop ((b ++ [x]).length - c), k + 1⟩ := rfl
    rw [hpush]
    have hb' : ((b ++ [x]).drop ((b ++ [x]).length - c)).length ≤ c := by
      simp only [List.length_drop, List.length_append, List.length_cons]
      omega
    rw [ih _ _ hb']
    calc ((b ++ [x]).drop ((b ++ [x]).length - c) ++ xs).drop
            (((b ++ [x]).drop ((b ++ [x]).length - c) ++ xs).length - c)
        = ((b ++ [x]) ++ xs).drop (((b ++ [x]) ++ xs).length - c) :=
          lastN_append_lastN c (b ++ [x]) xs
      _ = (b ++ x :: xs).drop ((b ++ x :: xs).length - c) := by
          rw [List.append_assoc, List.singleton_append]

theorem snapshot_clear_pushAll_buf (rg : RespRing) (ys : List ResponseSample) :
    ((rg.snapshot_and_clear.2).pushAll ys).buf = ys.drop (ys.length - rg.capacity) := by
  have h0 : rg.snapshot_and_clear.2 = ⟨rg.capacity, [], rg.counter⟩ := rfl
  rw [h0, pushAll_buf rg.capacity ys rg.counter [] (by simp)]
  simp

/-- C5: for every capacity `c > 0`, pushing a sequence of at least `c`
samples leaves the response ring holding exactly the last `c` samples in
arrival order; `snapshot_and_clear` returns all buffered samples and leaves
the buffer empty; and a subsequent sequence of pushes followed by a
snapshot returns only the samples pushed after the clear. -/
theorem C5_resp_ring (c : Nat) (hc : 0 < c) (xs ys : List ResponseSample)
    (hlen : c ≤ xs.length) :
    ((mkRing c).pushAll xs).buf = xs.drop (xs.length - c)
    ∧ ((mkRing c).pushAll xs).snapshot_and_clear.1 = xs.drop (xs.length - c)
    ∧ ((mkRing c).pushAll xs).snapshot_and_clear.2.buf = []
    ∧ ((((mkRing c).pushAll xs).snapshot_and_clear.2).pushAll ys).snapshot_and_clear.1
        = ys.drop (ys.length - c) := by
  have h1 : ((mkRing c).pushAll xs).buf = xs.drop (xs.length - c) := by
    have := pushAll_buf c xs 0 [] (by simp)
    simpa [mkRing] using this
  have hcap : ((mkRing c).pushAll xs).capacity = c := pushAll_capacity (mkRing c) xs
  refine ⟨h1, h1, rfl, ?_⟩
  have h4 := snapshot_clear_pushAll_buf ((mkRing c).pushAll xs) ys
  rw [hcap] at h4
  exact h4

def sampleA : ResponseSample := ⟨"u1".data, "b1".data, none⟩
def sampleB : ResponseSample := ⟨"u2".data, "b2".data, some ("text/html".data)⟩
def sampleC : ResponseSample := ⟨"u3".data, "b3".data, none⟩
def sampleD : ResponseSample := ⟨"u4".data, "b4".data, none⟩

/-- Witness for C5: capacity 2, three pushes retain the last two samples;
after a snapshot-and-clear, a push-then-snapshot returns only the new one. -/
theorem C5_resp_ring_witness :
    ((mkRing 2).pushAll [sampleA, sampleB, sampleC]).buf = [sampleB, sampleC]
    ∧ ((((mkRing 2).pushAll [sampleA, sampleB, sampleC]).snapshot_and_clear.2).pushAll
        [sampleD]).snapshot_and_clear.1 = [sampleD] := by
  have h := C5_resp_ring 2 (by decide) [sampleA, sampleB, sampleC] [sampleD] (by decide)
  exact ⟨by simpa using h.1, by simpa using h.2.2.2⟩

/-- C8: resolution is idempotent: resolving an already-resolved record set
against the same candidate pool changes nothing. -/
theorem C8_resolve_idempotent (recs : List Rec) (cands : List (Option Str)) :
    resolve_records (resolve_records recs cands) cands = resolve_records recs cands := by
  unfold resolve_records
  rw [List.map_map]
  apply List.map_congr_left
  intro r _
  by_cases hr : r.dai = none
  · cases hfb : freq_pick cands with
    | none => simp [Function.comp, hr, hfb]
    | some d => simp [Function.comp, hr, hfb]
  · simp [Function.comp, hr]

/-- C10: on the line "REG 45G BIG", where the number 45 is preceded by one
kind token and followed by another, the two inline patterns are matched
independently and concatenated: the single number is emitted both as a BIG
hit (number-then-kind) and as a REG hit (kind-then-number), with no
cross-pattern overlap removal. -/
theorem C10_double_count :
    scan_line_for_hits ("REG 45G BIG".data) = [(45, "BIG".data), (45, "REG".data)] := by
  decide

theorem all_take_of_countLeading {p : Char → Bool} :
    ∀ (l : Str) (k : Nat), k ≤ countLeading p l → (l.take k).all p = true := by
  intro l
  induction l with
  | nil => intro k _; simp
  | cons c cs ih =>
    intro k hk
    cases k with
    | zero => simp
    | succ k =>
      by_cases hc : p c = true
      · rw [countLeading, if_pos hc] at hk
        simp only [List.take_succ_cons, List.all_cons, hc, Bool.true_and]
        exact ih k (by omega)
      · rw [countLeading, if_neg (by simpa using hc)] at hk
        omega

theorem daiScan_shape :
    ∀ (l g : Str), daiScan l = some g →
      2 ≤ g.length ∧ g.length ≤ 5 ∧ g.all isAsciiDigit = true := by
  intro l
  induction l with
  | nil => intro g h; simp [daiScan] at h
  | cons c cs ih =>
    intro g h
    simp only [daiScan] at h
    split at h
    · cases h
      have hrun := countLeading_le_length isAsciiDigit (c :: cs)
      refine ⟨?_, ?_, ?_⟩
      · simp only [List.length_take]
        omega
      · simp only [List.length_take]
        omega
      · exact all_take_of_countLeading _ _ (by omega)
    · exact ih g h

theorem to_dai_str_shape {s : Option Str} {g : Str} (h : to_dai_str s = some g) :
    2 ≤ g.length ∧ g.length ≤ 5 ∧ g.all isAsciiDigit = true := by
  cases s with
  | none => simp [to_dai_str] at h
  | some s =>
    simp only [to_dai_str] at h
    split at h
    · exact absurd h (by simp)
    · exact daiScan_shape _ _ h

theorem tryDaiPat_shape {res : Option (List (Option Str))} {g : Str}
    (h : tryDaiPat res = some g) :
    2 ≤ g.length ∧ g.length ≤ 5 ∧ g.all isAsciiDigit = true := by
  cases res with
  | none => simp [tryDaiPat] at h
  | some groups =>
    simp only [tryDaiPat] at h
    cases hd : to_dai_str (firstTruthyGroup groups) with
    | none => rw [hd] at h; exact absurd h (by simp)
    | some g' =>
      rw [hd] at h
      have h' : (if 2 ≤ g'.length ∧ g'.length ≤ 5 then some g' else none) = some g := h
      by_cases hc : 2 ≤ g'.length ∧ g'.length ≤ 5
      · rw [if_pos hc] at h'
        cases h'
        exact to_dai_str_shape hd
      · rw [if_neg hc] at h'
        exact absurd h' (by simp)

theorem extract_dai_from_text_shape {t g : Str}
    (h : extract_dai_from_text t = some g) :
    2 ≤ g.length ∧ g.length ≤ 5 ∧ g.all isAsciiDigit = true := by
  simp only [extract_dai_from_text] at h
  split at h
  · exact absurd h (by simp)
  · split at h
    · cases h; exact tryDaiPat_shape (by assumption)
    · split at h
      · cases h; exact tryDaiPat_shape (by assumption)
      · split at h
        · cases h; exact tryDaiPat_shape (by assumption)
        · exact tryDaiPat_shape h

/-- C2 (amended): identifier extraction from text returns only tokens of
2 to 5 digits; "台番:123" yields "123" and the 1-digit "台番:1" yields no
match, but the 6-digit "台番:123456" yields the first five digits
("12345") rather than no match, because the digit pattern has no trailing
boundary. -/
theorem C2_dai_extraction :
    (∀ t g, extract_dai_from_text t = some g →
        2 ≤ g.length ∧ g.length ≤ 5 ∧ g.all isAsciiDigit = true)
    ∧ extract_dai_from_text ("台番:123".data) = some ("123".data)
    ∧ extract_dai_from_text ("台番:1".data) = none
    ∧ extract_dai_from_text ("台番:123456".data) = some ("12345".data) :=
  ⟨fun _ _ h => extract_dai_from_text_shape h, by decide, by decide, by decide⟩

/-- Witness for C2: the amended theorem applied to the concrete extraction
on "台番:123". -/
theorem C2_dai_extraction_witness :
    2 ≤ ("123".data).length ∧ ("123".data).length ≤ 5 ∧
      ("123".data).all isAsciiDigit = true :=
  C2_dai_extraction.1 ("台番:123".data) ("123".data) C2_dai_extraction.2.1

/-- Counterexample to C2 as stated: on the 6-digit input "台番:123456"
the extractor does not report "no match" — it returns "12345" (the first
five digits matched by `RE_DAI_GENERIC`). -/
theorem C2_counterexample :
    extract_dai_from_text ("台番:123456".data) = some ("12345".data) := by
  decide

/-! ### Claim C9: the text normalizer -/

/-- Comparison definition for claim C9, following the spec's words: the
canonical form with commas removed (deleted outright) rather than replaced
by a space as the source does. -/
def normalizeSpecCommaRemoved (s : Str) : Str :=
  pyStrip (collapse_ws ((nfkcStr s).filter (fun c => !(c == ','))))

theorem head?_dropWhile_not (p : Char → Bool) :
    ∀ (l : Str) (c : Char), (l.dropWhile p).head? = some c → p c = false := by
  intro l
  induction l with
  | nil => intro c h; simp at h
  | cons a t ih =>
    intro c h
    rw [List.dropWhile_cons] at h
    split at h
    · exact ih c h
    · simp only [List.head?_cons, Option.some.injEq] at h
      subst h
      rename_i hpa
      simpa using hpa

theorem collapse_all {q : Char → Bool} (hsp : q ' ' = true) :
    ∀ l : Str, l.all q = true → (collapse_ws l).all q = true := by
  intro l
  induction l with
  | nil => intro _; simp [collapse_ws]
  | cons a t ih =>
    intro hall
    cases t with
    | nil =>
      simp only [List.all_cons, Bool.and_eq_true] at hall
      simp only [collapse_ws]
      by_cases ha : isSpaceChar a = true
      · simp [ha, hsp]
      · simp [ha, hall.1]
    | cons b t' =>
      simp only [List.all_cons, Bool.and_eq_true] at hall
      simp only [collapse_ws]
      by_cases hab : (isSpaceChar a && isSpaceChar b) = true
      · rw [if_pos hab]
        exact ih (by simp [hall.2.1, hall.2.2])
      · rw [if_neg hab]
        simp only [List.all_cons, Bool.and_eq_true]
        refine ⟨?_, ih (by simp [hall.2.1, hall.2.2])⟩
        by_cases ha : isSpaceChar a = true
        · simp [ha, hsp]
        · simp [ha, hall.1]

theorem collapse_space_shape :
    ∀ l : Str, (collapse_ws l).all (fun c => !(isSpaceChar c) || c == ' ') = true := by
  intro l
  induction l with
  | nil => simp [collapse_ws]
  | cons a t ih =>
    cases t with
    | nil =>
      simp only [collapse_ws]
      by_cases ha : isSpaceChar a = true
      · simp [ha]
      · simp [ha]
    | cons b t' =>
      simp only [collapse_ws]
      by_cases hab : (isSpaceChar a && isSpaceChar b) = true
      · rw [if_pos hab]; exact ih
      · rw [if_neg hab]
        simp only [List.all_cons, Bool.and_eq_true]
        refine ⟨?_, ih⟩
        by_cases ha : isSpaceChar a = true
        · simp [ha]
        · simp [ha]

theorem collapse_head_keep {b : Char} (t : Str) (hb : isSpaceChar b = false) :
    ∃ t2, collapse_ws (b :: t) = b :: t2 := by
  cases t with
  | nil => exact ⟨[], by simp [collapse_ws, hb]⟩
  | cons c t' => exact ⟨collapse_ws (c :: t'), by simp [collapse_ws, hb]⟩

/-- No two adjacent whitespace characters. -/
def RSpace : Char → Char → Prop :=
  fun a b => ¬(isSpaceChar a = true ∧ isSpaceChar b = true)

theorem collapse_chain : ∀ l : Str, List.Chain' RSpace (collapse_ws l) := by
  intro l
  induction l with
  | nil => simp [collapse_ws]
  | cons a t ih =>
    cases t with
    | nil => simp [collapse_ws]
    | cons b t' =>
      simp only [collapse_ws]
      by_cases hab : (isSpaceChar a && isSpaceChar b) = true
      · rw [if_pos hab]; exact ih
      · rw [if_neg hab]
        rw [List.chain'_cons']
        refine ⟨?_, ih⟩
        intro y hy
        by_cases hb : isSpaceChar b = true
        · have ha : isSpaceChar a = false := by
            cases hA : isSpaceChar a
            · rfl
            · exact absurd (by simp [hA, hb]) hab
          rw [if_neg (by simp [ha])]
          intro hcon
          exact absurd hcon.1 (by simp [ha])
        · obtain ⟨t2, ht2⟩ := collapse_head_keep t' (by simpa using hb)
          rw [ht2] at hy
          simp only [List.head?_cons, Option.mem_def, Option.some.injEq] at hy
          subst hy
          intro hcon
          exact absurd hcon.2 (by simpa using hb)

theorem chain_RSpace_reverse (l : Str) (h : List.Chain' RSpace l) :
    List.Chain' RSpace l.reverse := by
  rw [List.chain'_reverse]
  have heq : flip RSpace = RSpace := by
    funext a b
    simp [flip, RSpace, And.comm]
  rw [heq]
  exact h

theorem pyStrip_all {q : Char → Bool} (l : Str) (h : l.all q = true) :
    (pyStrip l).all q = true := by
  rw [List.all_eq_true] at h ⊢
  intro x hx
  apply h
  unfold pyStrip at hx
  rw [List.mem_reverse] at hx
  have hx2 := (List.dropWhile_suffix (l := (l.dropWhile isSpaceChar).reverse) isSpaceChar).subset hx
  rw [List.mem_reverse] at hx2
  exact (List.dropWhile_suffix (l := l) isSpaceChar).subset hx2

theorem pyStrip_chain (l : Str) (h : List.Chain' RSpace l) :
    List.Chain' RSpace (pyStrip l) := by
  unfold pyStrip
  apply chain_RSpace_reverse
  apply List.Chain'.suffix _ (List.dropWhile_suffix isSpaceChar)
  apply chain_RSpace_reverse
  exact List.Chain'.suffix h (List.dropWhile_suffix isSpaceChar)

theorem pyStrip_head {l : Str} {c : Char} (h : (pyStrip l).head? = some c) :
    isSpaceChar c = false := by
  unfold pyStrip at h
  rw [List.head?_reverse] at h
  set B := ((l.dropWhile isSpaceChar).reverse).dropWhile isSpaceChar with hB
  have hBne : B ≠ [] := by
    intro hnil
    rw [hnil] at h
    simp at h
  obtain ⟨pre, hpre⟩ := List.dropWhile_suffix (l := (l.dropWhile isSpaceChar).reverse) isSpaceChar
  have hlast : ((l.dropWhile isSpaceChar).reverse).getLast? = some c := by
    rw [← hpre, List.getLast?_append_of_ne_nil _ hBne]
    exact h
  rw [List.getLast?_reverse] at hlast
  exact head?_dropWhile_not _ _ _ hlast

theorem pyStrip_last {l : Str} {c : Char} (h : (pyStrip l).getLast? = some c) :
    isSpaceChar c = false := by
  unfold pyStrip at h
  rw [List.getLast?_reverse] at h
  exact head?_dropWhile_not _ _ _ h

/-- C9 (amended): the normalizer is a pure total function whose output
contains no comma (each comma was replaced by a space, not deleted), whose
only whitespace character is a plain space, with no two adjacent
whitespace characters and no leading or trailing whitespace. -/
theorem C9_normalizer (s : Str) :
    (normalize_text s).all (fun c => !(c == ',')) = true
    ∧ (normalize_text s).all (fun c => !(isSpaceChar c) || c == ' ') = true
    ∧ List.Chain' RSpace (normalize_text s)
    ∧ (∀ c, (normalize_text s).head? = some c → isSpaceChar c = false)
    ∧ (∀ c, (normalize_text s).getLast? = some c → isSpaceChar c = false) := by
  have hmap : ((nfkcStr s).map (fun c => if c == ',' then ' ' else c)).all
      (fun c => !(c == ',')) = true := by
    rw [List.all_eq_true]
    intro x hx
    rw [List.mem_map] at hx
    obtain ⟨y, _, rfl⟩ := hx
    by_cases hy : y == ','
    · simp [hy]
    · simp only [hy, if_neg]
      simpa using hy
  refine ⟨?_, ?_, ?_, ?_, ?_⟩
  · exact pyStrip_all _ (collapse_all (by decide) _ hmap)
  · exact pyStrip_all _ (collapse_space_shape _)
  · exact pyStrip_chain _ (collapse_chain _)
  · intro c hc; exact pyStrip_head hc
  · intro c hc; exact pyStrip_last hc

/-- Witness for C9 at the input "1,2". -/
theorem C9_normalizer_witness :
    (normalize_text ("1,2".data)).all (fun c => !(c == ',')) = true
    ∧ isSpaceChar '1' = false :=
  ⟨(C9_normalizer ("1,2".data)).1,
   (C9_normalizer ("1,2".data)).2.2.2.1 '1' (by decide)⟩

/-- Counterexample to C9 as stated: the source normalizer turns "1,2" into
"1 2" (comma replaced by a space); removing the comma, as the spec says,
would give "12". -/
theorem C9_counterexample :
    normalize_text ("1,2".data) = "1 2".data
    ∧ normalizeSpecCommaRemoved ("1,2".data) = "12".data
    ∧ normalize_text ("1,2".data) ≠ normalizeSpecCommaRemoved ("1,2".data) := by
  refine ⟨by decide, by decide, by decide⟩

/-! ### Claim C3: frequency-vote resolution -/

theorem pickLoop_none {vals : List Str} :
    ∀ (ks : List Str) (acc : Option Str), pickLoop vals acc ks = none →
      acc = none ∧ ks = [] := by
  intro ks
  induction ks with
  | nil => intro acc h; exact ⟨by simpa [pickLoop] using h, rfl⟩
  | cons k t ih =>
    intro acc h
    exfalso
    cases acc with
    | none =>
      have := (ih (some k) (by simpa [pickLoop] using h)).1
      simp at this
    | some b =>
      by_cases hc : List.count b vals < List.count k vals
      · have := (ih (some k) (by simpa [pickLoop, hc] using h)).1
        simp at this
      · have := (ih (some b) (by simpa [pickLoop, hc] using h)).1
        simp at this

theorem pickLoop_max {vals : List Str} :
    ∀ (ks : List Str) (acc : Option Str) (d : Str), pickLoop vals acc ks = some d →
      (acc = some d ∨ d ∈ ks)
      ∧ (∀ k ∈ ks, List.count k vals ≤ List.count d vals)
      ∧ (∀ b, acc = some b → List.count b vals ≤ List.count d vals) := by
  intro ks
  induction ks with
  | nil =>
    intro acc d h
    simp only [pickLoop] at h
    refine ⟨Or.inl h, by simp, fun b hb => ?_⟩
    rw [hb] at h
    cases h
    exact le_refl _
  | cons k t ih =>
    intro acc d h
    cases acc with
    | none =>
      have h' : pickLoop vals (some k) t = some d := by simpa [pickLoop] using h
      obtain ⟨hmem, hmax, hacc⟩ := ih (some k) d h'
      have hkd : List.count k vals ≤ List.count d vals := hacc k rfl
      refine ⟨?_, ?_, ?_⟩
      · rcases hmem with h1 | h1
        · right; cases h1; exact List.mem_cons_self _ _
        · right; exact List.mem_cons_of_mem _ h1
      · intro x hx
        rcases List.mem_cons.mp hx with rfl | hx'
        · exact hkd
        · exact hmax x hx'
      · intro b hb; cases hb
    | some b0 =>
      by_cases hc : List.count b0 vals < List.count k vals
      · have h' : pickLoop vals (some k) t = some d := by simpa [pickLoop, hc] using h
        obtain ⟨hmem, hmax, hacc⟩ := ih (some k) d h'
        have hkd := hacc k rfl
        refine ⟨?_, ?_, ?_⟩
        · rcases hmem with h1 | h1
          · right; cases h1; exact List.mem_cons_self _ _
          · right; exact List.mem_cons_of_mem _ h1
        · intro x hx
          rcases List.mem_cons.mp hx with rfl | hx'
          · exact hkd
          · exact hmax x hx'
        · intro b hb
          cases hb
          exact le_trans (le_of_lt hc) hkd
      · have h' : pickLoop vals (some b0) t = some d := by simpa [pickLoop, hc] using h
        obtain ⟨hmem, hmax, hacc⟩ := ih (some b0) d h'
        have hbd := hacc b0 rfl
        refine ⟨?_, ?_, ?_⟩
        · rcases hmem with h1 | h1
          · left; exact h1
          · right; exact List.mem_cons_of_mem _ h1
        · intro x hx
          rcases List.mem_cons.mp hx with rfl | hx'
          · exact le_trans (not_lt.mp hc) hbd
          · exact hmax x hx'
        · intro b hb; cases hb; exact hbd

theorem pickLoop_first {vals : List Str} :
    ∀ (ks : List Str) (acc : Option Str) (d : Str), pickLoop vals acc ks = some d →
      acc = some d ∨
      ∃ l m, ks = l ++ d :: m
        ∧ (∀ k ∈ l, List.count k vals < List.count d vals)
        ∧ (∀ b, acc = some b → List.count b vals < List.count d vals) := by
  intro ks
  induction ks with
  | nil => intro acc d h; left; simpa [pickLoop] using h
  | cons k t ih =>
    intro acc d h
    cases acc with
    | none =>
      have h' : pickLoop vals (some k) t = some d := by simpa [pickLoop] using h
      rcases ih (some k) d h' with h1 | ⟨l, m, hlm, hl, hacc⟩
      · right
        cases h1
        exact ⟨[], t, rfl, by simp, fun b hb => by cases hb⟩
      · right
        refine ⟨k :: l, m, by simp [hlm], ?_, fun b hb => by cases hb⟩
        intro x hx
        rcases List.mem_cons.mp hx with rfl | hx'
        · exact hacc _ rfl
        · exact hl x hx'
    | some b0 =>
      by_cases hc : List.count b0 vals < List.count k vals
      · have h' : pickLoop vals (some k) t = some d := by simpa [pickLoop, hc] using h
        rcases ih (some k) d h' with h1 | ⟨l, m, hlm, hl, hacc⟩
        · right
          cases h1
          exact ⟨[], t, rfl, by simp, fun b hb => by cases hb; exact hc⟩
        · right
          refine ⟨k :: l, m, by simp [hlm], ?_, ?_⟩
          · intro x hx
            rcases List.mem_cons.mp hx with rfl | hx'
            · exact hacc _ rfl
            · exact hl x hx'
          · intro b hb
            cases hb
            exact lt_trans hc (hacc k rfl)
      · have h' : pickLoop vals (some b0) t = some d := by simpa [pickLoop, hc] using h
        rcases ih (some b0) d h' with h1 | ⟨l, m, hlm, hl, hacc⟩
        · left; exact h1
        · right
          refine ⟨k :: l, m, by simp [hlm], ?_, ?_⟩
          · intro x hx
            rcases List.mem_cons.mp hx with rfl | hx'
            · exact lt_of_le_of_lt (not_lt.mp hc) (hacc b0 rfl)
            · exact hl x hx'
          · intro b hb; cases hb; exact hacc b0 rfl

theorem mem_dedupFirstAux [DecidableEq α] :
    ∀ (l seen : List α) (x : α), x ∈ dedupFirstAux seen l ↔ (x ∈ l ∧ x ∉ seen) := by
  intro l
  induction l with
  | nil => intro seen x; simp [dedupFirstAux]
  | cons y t ih =>
    intro seen x
    by_cases hy : y ∈ seen
    · rw [dedupFirstAux, if_pos hy, ih]
      constructor
      · rintro ⟨hx, hns⟩
        exact ⟨List.mem_cons_of_mem _ hx, hns⟩
      · rintro ⟨hx, hns⟩
        rcases List.mem_cons.mp hx with rfl | hx'
        · exact absurd hy hns
        · exact ⟨hx', hns⟩
    · rw [dedupFirstAux, if_neg hy]
      rw [List.mem_cons, ih]
      constructor
      · rintro (rfl | ⟨hx, hns⟩)
        · exact ⟨List.mem_cons_self _ _, hy⟩
        · refine ⟨List.mem_cons_of_mem _ hx, fun hc => hns (by simp [hc])⟩
      · rintro ⟨hx, hns⟩
        rcases List.mem_cons.mp hx with rfl | hx'
        · exact Or.inl rfl
        · by_cases hxy : x = y
          · exact Or.inl hxy
          · exact Or.inr ⟨hx', by simp [hns, hxy]⟩

theorem mem_dedupFirst [DecidableEq α] (l : List α) (x : α) :
    x ∈ dedupFirst l ↔ x ∈ l := by
  rw [dedupFirst, mem_dedupFirstAux]
  simp

theorem dedupFirst_eq_nil [DecidableEq α] (l : List α) :
    dedupFirst l = [] ↔ l = [] := by
  cases l with
  | nil => simp [dedupFirst, dedupFirstAux]
  | cons x t => simp [dedupFirst, dedupFirstAux]

/-- C3: resolution assigns, to every record lacking an identifier, the
frequency vote over the batch candidates (`freq_pick`); records carrying
an identifier are untouched; without valid candidates the vote is empty
and all records stay as they are; and the vote is the most frequent valid
candidate, the earliest first-encountered one among ties (everything
before it in first-occurrence order has a strictly smaller count). -/
theorem C3_resolution (recs : List Rec) (cands : List (Option Str)) :
    (freq_pick cands = none → resolve_records recs cands = recs)
    ∧ List.Forall₂ (fun r r' =>
        (r.dai ≠ none → r' = r)
        ∧ (r.dai = none → r'.dai = freq_pick cands ∧ r'.game = r.game ∧ r'.kind = r.kind))
        recs (resolve_records recs cands)
    ∧ (freq_pick cands = none ↔ validDaiVals cands = [])
    ∧ (∀ d, freq_pick cands = some d →
        d ∈ validDaiVals cands
        ∧ (∀ k ∈ validDaiVals cands,
            List.count k (validDaiVals cands) ≤ List.count d (validDaiVals cands))
        ∧ ∃ l m, dedupFirst (validDaiVals cands) = l ++ d :: m
            ∧ ∀ k ∈ l, List.count k (validDaiVals cands) < List.count d (validDaiVals cands)) := by
  refine ⟨?_, ?_, ?_, ?_⟩
  · intro h
    unfold resolve_records
    rw [h]
    have hid : ∀ r ∈ recs, (if r.dai = none then { r with dai := none } else r) = r := by
      intro r _
      by_cases hr : r.dai = none
      · rw [if_pos hr]
        cases r
        simp_all
      · rw [if_neg hr]
    calc recs.map (fun r => if r.dai = none then { r with dai := none } else r)
        = recs.map id := List.map_congr_left (fun r hr => by rw [hid r hr]; rfl)
      _ = recs := List.map_id recs
  · induction recs with
    | nil => exact List.Forall₂.nil
    | cons r t ih =>
      show List.Forall₂ _ (r :: t)
        ((if r.dai = none then { r with dai := freq_pick cands } else r) :: resolve_records t cands)
      refine List.Forall₂.cons ?_ ih
      constructor
      · intro hr
        rw [if_neg hr]
      · intro hr
        rw [if_pos hr]
        exact ⟨rfl, rfl, rfl⟩
  · constructor
    · intro h
      have := pickLoop_none _ _ h
      rw [dedupFirst_eq_nil] at this
      exact this.2
    · intro h
      unfold freq_pick
      rw [h]
      rfl
  · intro d h
    have hmax := pickLoop_max _ _ _ h
    have hfirst := pickLoop_first _ _ _ h
    have hdmem : d ∈ validDaiVals cands := by
      rcases hmax.1 with h1 | h1
      · cases h1
      · exact (mem_dedupFirst _ _).mp h1
    refine ⟨hdmem, ?_, ?_⟩
    · intro k hk
      exact hmax.2.1 k ((mem_dedupFirst _ _).mpr hk)
    · rcases hfirst with h1 | ⟨l, m, hlm, hl, _⟩
      · cases h1
      · exact ⟨l, m, hlm, hl⟩

def candsC3 : List (Option Str) :=
  [some ("11".data), some ("22".data), some ("11".data)]

/-- Witness for C3: on the candidate pool [11, 22, 11] the vote is 11, and
the theorem yields that 22 occurs at most as often as 11. -/
theorem C3_resolution_witness :
    List.count ("22".data) (validDaiVals candsC3)
      ≤ List.count ("11".data) (validDaiVals candsC3) := by
  have h := (C3_resolution [] candsC3).2.2.2 ("11".data) (by decide)
  exact h.2.1 ("22".data) (by decide)

/-! ### Claim C6: the aggregator's detail output -/

theorem dedupByKeyAux_key_not_seen :
    ∀ (l : List Row) (seen : List (Option Str × Int × Str)) (x : Row),
      x ∈ dedupByKeyAux seen l → detailKey x ∉ seen := by
  intro l
  induction l with
  | nil => intro seen x hx; simp [dedupByKeyAux] at hx
  | cons y t ih =>
    intro seen x hx
    by_cases hy : detailKey y ∈ seen
    · rw [dedupByKeyAux, if_pos hy] at hx
      exact ih seen x hx
    · rw [dedupByKeyAux, if_neg hy] at hx
      rcases List.mem_cons.mp hx with rfl | hx'
      · exact hy
      · intro hc
        exact ih _ x hx' (by simp [hc])

theorem pairwise_dedupByKeyAux :
    ∀ (l : List Row) (seen : List (Option Str × Int × Str)),
      (dedupByKeyAux seen l).Pairwise (fun a b => detailKey a ≠ detailKey b) := by
  intro l
  induction l with
  | nil => intro seen; simp [dedupByKeyAux]
  | cons y t ih =>
    intro seen
    by_cases hy : detailKey y ∈ seen
    · rw [dedupByKeyAux, if_pos hy]
      exact ih seen
    · rw [dedupByKeyAux, if_neg hy]
      refine List.Pairwise.cons ?_ (ih _)
      intro b hb hkey
      have := dedupByKeyAux_key_not_seen _ _ _ hb
      exact this (by simp [← hkey])

theorem keys_dedupByKeyAux :
    ∀ (l : List Row) (seen : List (Option Str × Int × Str)) (k : Option Str × Int × Str),
      k ∈ (dedupByKeyAux seen l).map detailKey ↔
        (k ∈ l.map detailKey ∧ k ∉ seen) := by
  intro l
  induction l with
  | nil => intro seen k; simp [dedupByKeyAux]
  | cons y t ih =>
    intro seen k
    by_cases hy : detailKey y ∈ seen
    · rw [dedupByKeyAux, if_pos hy, ih]
      simp only [List.map_cons, List.mem_cons]
      constructor
      · rintro ⟨hk, hns⟩
        exact ⟨Or.inr hk, hns⟩
      · rintro ⟨hk | hk, hns⟩
        · exact absurd (hk ▸ hy) hns
        · exact ⟨hk, hns⟩
    · rw [dedupByKeyAux, if_neg hy]
      simp only [List.map_cons, List.mem_cons, ih]
      constructor
      · rintro (rfl | ⟨hk, hns⟩)
        · exact ⟨Or.inl rfl, hy⟩
        · exact ⟨Or.inr hk, fun hc => hns (by simp [hc])⟩
      · rintro ⟨hk | hk, hns⟩
        · exact Or.inl hk
        · by_cases hky : k = detailKey y
          · exact Or.inl hky
          · exact Or.inr ⟨hk, by simp [hns, hky]⟩

theorem rowLe_none_mono {a b : Row} (hab : rowLe a b) (ha : a.dai = none) :
    b.dai = none := by
  unfold rowLe keyEmb at hab
  rw [Prod.Lex.le_iff] at hab
  rcases hab with h1 | ⟨h1, _⟩
  · exfalso
    rw [ha] at h1
    have h2 : (true : Bool) < b.dai.isNone := by simpa using h1
    cases hbb : b.dai.isNone <;> rw [hbb] at h2 <;> exact absurd h2 (by decide)
  · rw [ha] at h1
    have h2 : (true : Bool) = b.dai.isNone := by simpa using h1
    exact Option.isNone_iff_eq_none.mp h2.symm

/-- C6: the detail output is the record set with identifier re-normalized
and kind mapped into {BIG, REG}, deduplicated on the key
(identifier, gameCount, kind) — its keys are pairwise distinct but cover
exactly the keys of the normalized input — and sorted by that key with
identifier-absent rows placed last. -/
theorem C6_detail_rows (rows : List Row) :
    List.Sorted rowLe (detail_rows rows)
    ∧ List.Pairwise (fun a b => detailKey a ≠ detailKey b) (detail_rows rows)
    ∧ (∀ k, k ∈ (detail_rows rows).map detailKey ↔
          k ∈ (rows.map normalize_row).map detailKey)
    ∧ List.Pairwise (fun a b => a.dai = none → b.dai = none) (detail_rows rows) := by
  have hperm : List.Perm (detail_rows rows) (dedupByKey (rows.map normalize_row)) :=
    List.perm_insertionSort rowLe _
  have hsorted : List.Sorted rowLe (detail_rows rows) :=
    List.sorted_insertionSort rowLe _
  refine ⟨hsorted, ?_, ?_, ?_⟩
  · have hd : (dedupByKey (rows.map normalize_row)).Pairwise
        (fun a b => detailKey a ≠ detailKey b) := pairwise_dedupByKeyAux _ _
    exact (hperm.pairwise_iff (fun h he => h he.symm)).mpr hd
  · intro k
    have hmapperm := hperm.map detailKey
    rw [hmapperm.mem_iff]
    unfold dedupByKey
    rw [keys_dedupByKeyAux]
    simp
  · exact List.Pairwise.imp (fun hab ha => rowLe_none_mono hab ha) hsorted

/-- Witness for C6 on a concrete two-row input with a duplicate key and an
identifier-absent row. -/
theorem C6_detail_rows_witness :
    List.Sorted rowLe (detail_rows
      [⟨some ("12".data), 45, "BIG".data⟩, ⟨none, 3, "REG".data⟩,
       ⟨some ("12".data), 45, "BIG".data⟩]) :=
  (C6_detail_rows _).1

/-! ### Claim C4: cascade short-circuit -/

theorem v06Loop_acc (env : DrillEnv) :
    ∀ (ds vd : List Str) (acc : List Rec),
      ∃ ex, (v06Loop env ds vd acc).2 = acc ++ ex := by
  intro ds
  induction ds with
  | nil => intro vd acc; exact ⟨[], by simp [v06Loop]⟩
  | cons d rest ih =>
    intro vd acc
    by_cases hm : d ∈ vd
    · obtain ⟨ex, hex⟩ := ih vd acc
      exact ⟨ex, by simpa [v06Loop, hm] using hex⟩
    · cases hv : env.visitV06 d with
      | none =>
        obtain ⟨ex, hex⟩ := ih vd acc
        exact ⟨ex, by simpa [v06Loop, hm, hv] using hex⟩
      | some v =>
        obtain ⟨ex, hex⟩ := ih (vd ++ [d]) (acc ++ parseVisit v)
        refine ⟨parseVisit v ++ ex, ?_⟩
        simp only [v06Loop, hm, hv, if_neg, ite_false, decide_eq_true_eq]
        rw [if_neg (by simpa using hm), hex, List.append_assoc]

/-- C4: when tier 1 (direct links) yields at least one record and a
per-card limit is configured (as it is at the call site), the tier-3
probe and the tier-4 free-text harvesting bodies are never entered. -/
theorem C4_cascade (env : DrillEnv) (limit : Option Nat)
    (hlimit : limit ≠ none)
    (ht1 : (drill_dai_links env limit).t1records ≠ []) :
    (drill_dai_links env limit).tier3ran = false
    ∧ (drill_dai_links env limit).tier4ran = false := by
  have ht1' : (drillT1 env limit).2.2 ≠ [] := ht1
  obtain ⟨ex, hex⟩ := v06Loop_acc env
    ((drillDom env).take (limitFor limit (drillDom env).length))
    (drillT1 env limit).2.1 (drillT1 env limit).2.2
  have hrec12 : drillRec12 env limit = (drillT1 env limit).2.2 ++ ex := hex
  have hne : drillRec12 env limit ≠ [] := by
    rw [hrec12]
    intro hc
    exact ht1' (List.append_eq_nil.mp hc).1
  have hemp : (drillRec12 env limit).isEmpty = false := by
    cases h12 : drillRec12 env limit with
    | nil => exact absurd h12 hne
    | cons a t => rfl
  have hg3 : drillT3Guard env limit = false := by
    unfold drillT3Guard
    rw [hemp]
    simp
  have hrec3 : drillRec3 env limit = drillRec12 env limit := by
    unfold drillRec3
    rw [hg3]
    simp
  have hg4 : drillT4Guard env limit = false := by
    unfold drillT4Guard
    rcases limit with _ | l
    · exact absurd rfl hlimit
    · rw [hrec3, hemp]
      rfl
  exact ⟨hg3, hg4⟩

def envC4 : DrillEnv :=
  { linkItems := [⟨"a1".data, [], []⟩],
    linkItemsRetry := [],
    visitHref := fun _ => ⟨[⟨"BIG45".data, [], []⟩], []⟩,
    visitDaiText := fun _ => ⟨[], []⟩,
    attrBags := [],
    visitV06 := fun _ => none,
    probe := ⟨[], []⟩,
    blobsT3 := [],
    blobsT4 := [],
    current := ⟨[], []⟩,
    currentRetry := ⟨[], []⟩ }

/-- Witness for C4: a card whose single direct link yields the record
(45, BIG), with the configured per-card limit 240. -/
theorem C4_cascade_witness :
    (drill_dai_links envC4 (some 240)).tier3ran = false
    ∧ (drill_dai_links envC4 (some 240)).tier4ran = false :=
  C4_cascade envC4 (some 240) (by simp) (by decide)

/-! ### Claim C7: record invariants reaching the aggregator -/

/-- The well-formedness every record of the markup/text parser satisfies:
non-negative game count and a standardized kind.  Records of the JSON dict
walk satisfy only the kind half (`KindOK` below): their game counts pass
through `int(str(...))` with their sign. -/
def RecOK (r : Rec) : Prop :=
  0 ≤ r.game ∧ (r.kind = "BIG".data ∨ r.kind = "REG".data)

theorem toNat_ofNat_valid {n : Nat} (h : n < 0xD800) : (Char.ofNat n).toNat = n := by
  unfold Char.ofNat
  rw [dif_pos (Or.inl h)]
  rfl

set_option maxRecDepth 4000 in
theorem nfkcChar_numChar {c : Char} (h : isNumChar c = true) :
    ∀ d ∈ nfkcChar c, (isAsciiDigit d || d == ',') = true := by
  intro d hd
  simp only [isNumChar, decide_eq_true_eq] at h
  unfold nfkcChar at hd
  rcases h with h | h | h
  · rw [if_neg (by omega), if_neg (by omega)] at hd
    simp only [List.mem_singleton] at hd
    subst hd
    have hdig : isAsciiDigit d = true := by
      simp only [isAsciiDigit, decide_eq_true_eq]
      omega
    simp [hdig]
  · rw [if_pos (by omega)] at hd
    simp only [List.mem_singleton] at hd
    have ht : (Char.ofNat (c.toNat - 0xFEE0)).toNat = c.toNat - 0xFEE0 :=
      toNat_ofNat_valid (by omega)
    have hdig : isAsciiDigit d = true := by
      rw [hd]
      simp only [isAsciiDigit, decide_eq_true_eq, ht]
      omega
    simp [hdig]
  · rw [if_neg (by omega), if_neg (by omega)] at hd
    simp only [List.mem_singleton] at hd
    subst hd
    have hc : d = ',' := by
      have := Char.ofNat_toNat d
      rw [h] at this
      exact this.symm
    subst hc
    decide

theorem nfkcStr_numChar {l : Str} (h : l.all isNumChar = true) :
    (nfkcStr l).all (fun d => isAsciiDigit d || d == ',') = true := by
  rw [List.all_eq_true] at h ⊢
  intro d hd
  rw [nfkcStr, List.mem_flatMap] at hd
  obtain ⟨c, hc, hdc⟩ := hd
  exact nfkcChar_numChar (h c hc) d hdc

theorem commaMap_all {l : Str} (h : l.all (fun d => isAsciiDigit d || d == ',') = true) :
    (l.map (fun c => if c == ',' then ' ' else c)).all
      (fun d => isAsciiDigit d || d == ' ') = true := by
  rw [List.all_eq_true] at h ⊢
  intro d hd
  rw [List.mem_map] at hd
  obtain ⟨c, hc, rfl⟩ := hd
  have hq := h c hc
  by_cases hcc : (c == ',') = true
  · rw [if_pos hcc]
    decide
  · rw [if_neg hcc]
    simp only [Bool.or_eq_true] at hq ⊢
    rcases hq with h1 | h1
    · exact Or.inl h1
    · exact absurd h1 hcc

theorem num_to_int_nonneg {raw : Str} (hall : raw.all isNumChar = true) {g : Int}
    (h : num_to_int raw = some g) : 0 ≤ g := by
  unfold num_to_int at h
  have hq : (normalize_text raw).all (fun d => isAsciiDigit d || d == ' ') = true := by
    unfold normalize_text
    apply pyStrip_all
    apply collapse_all (by decide)
    exact commaMap_all (nfkcStr_numChar hall)
  have hdig : ((normalize_text raw).filter (fun c => !(c == ' '))).all isAsciiDigit = true := by
    rw [List.all_eq_true] at hq ⊢
    intro c hc
    rw [List.mem_filter] at hc
    have h1 := hq c hc.1
    have h2 := hc.2
    simp only [Bool.or_eq_true] at h1
    rcases h1 with h1 | h1
    · exact h1
    · rw [h1] at h2
      simp at h2
  cases hfc : (normalize_text raw).filter (fun c => !(c == ' ')) with
  | nil =>
    rw [hfc] at h
    simp [pyIntOfString] at h
  | cons c rest =>
    rw [hfc] at h hdig
    simp only [List.all_cons, Bool.and_eq_true] at hdig
    have hcm : ¬(c = '-') := by
      intro e
      subst e
      exact absurd hdig.1 (by decide)
    have hcp : ¬(c = '+') := by
      intro e
      subst e
      exact absurd hdig.1 (by decide)
    have hall2 : (c :: rest).all isAsciiDigit = true := by
      simp [hdig.1, hdig.2]
    rw [pyIntOfString, if_neg hcm, if_neg hcp, if_pos hall2] at h
    obtain rfl : ((natOfDigits (c :: rest) : Int)) = g := by simpa using h
    exact Int.natCast_nonneg _

theorem mem_numCands_capture {cs : Str} {nr : Str × Str} (h : nr ∈ numCands cs) :
    nr.1.all isNumChar = true := by
  simp only [numCands, List.mem_map, List.mem_range] at h
  obtain ⟨i, hi, rfl⟩ := h
  refine all_take_of_countLeading cs _ ?_
  have h2 : min 6 (countLeading isNumChar cs) ≤ countLeading isNumChar cs :=
    min_le_right _ _
  omega

theorem matchP1At_num {cs : Str} {out : Str × Str × Str} (h : matchP1At cs = some out) :
    out.1.all isNumChar = true := by
  unfold matchP1At at h
  obtain ⟨nr, hnr, h2⟩ := firstSome_eq_some h
  obtain ⟨r2, _, h3⟩ := firstSome_eq_some h2
  obtain ⟨r3, _, h4⟩ := firstSome_eq_some h3
  obtain ⟨r4, _, h5⟩ := firstSome_eq_some h4
  cases hk : kindCands r4 with
  | nil => rw [hk] at h5; exact absurd h5 (by simp)
  | cons kr t =>
    rw [hk] at h5
    obtain rfl : (nr.1, kr.1, kr.2) = out := by simpa using h5
    exact mem_numCands_capture hnr

theorem matchP2At_num {cs : Str} {out : Str × Str × Str} (h : matchP2At cs = some out) :
    out.2.1.all isNumChar = true := by
  unfold matchP2At at h
  obtain ⟨kr, hkr, h2⟩ := firstSome_eq_some h
  obtain ⟨r2, _, h3⟩ := firstSome_eq_some h2
  obtain ⟨nr, hnr, h4⟩ := firstSome_eq_some h3
  obtain ⟨r4, _, h5⟩ := firstSome_eq_some h4
  cases hk : optGCands r4 with
  | nil => rw [hk] at h5; exact absurd h5 (by simp)
  | cons r5 t =>
    rw [hk] at h5
    obtain rfl : (kr.1, nr.1, r5) = out := by simpa using h5
    simpa using mem_numCands_capture hnr

theorem mem_finditerGFuel {α : Type} {matchAt : Str → Option (α × Str)} {P : α → Prop}
    (hP : ∀ (cs : Str) (a : α) (r : Str), matchAt cs = some (a, r) → P a) :
    ∀ (fuel : Nat) (l : Str) (a : α), a ∈ finditerGFuel matchAt fuel l → P a := by
  intro fuel
  induction fuel with
  | zero =>
    intro l a ha
    cases l <;> simp [finditerGFuel] at ha
  | succ n ih =>
    intro l a ha
    cases l with
    | nil => simp [finditerGFuel] at ha
    | cons c cs =>
      simp only [finditerGFuel] at ha
      cases hm : matchAt (c :: cs) with
      | some out =>
        rw [hm] at ha
        simp only [List.mem_cons] at ha
        rcases ha with rfl | ha
        · exact hP _ out.1 out.2 hm
        · exact ih _ _ ha
      | none =>
        rw [hm] at ha
        exact ih _ _ ha

theorem finditer1_num {l : Str} {nk : Str × Str} (h : nk ∈ finditer1 l) :
    nk.1.all isNumChar = true := by
  have h' : nk ∈ finditerGFuel matchP1Mapped l.length l := h
  have hP : ∀ (cs : Str) (a : Str × Str) (r : Str), matchP1Mapped cs = some (a, r) →
      a.1.all isNumChar = true := by
    intro cs a r hm
    cases ho : matchP1At cs with
    | none => simp [matchP1Mapped, ho] at hm
    | some o =>
      simp only [matchP1Mapped, ho, Option.map_some'] at hm
      have hp : (o.1, o.2.1) = a ∧ o.2.2 = r := by simpa using hm
      rw [← hp.1]
      simpa using matchP1At_num ho
  exact mem_finditerGFuel hP l.length l nk h'

theorem finditer2_num {l : Str} {kn : Str × Str} (h : kn ∈ finditer2 l) :
    kn.2.all isNumChar = true := by
  have h' : kn ∈ finditerGFuel matchP2Mapped l.length l := h
  have hP : ∀ (cs : Str) (a : Str × Str) (r : Str), matchP2Mapped cs = some (a, r) →
      a.2.all isNumChar = true := by
    intro cs a r hm
    cases ho : matchP2At cs with
    | none => simp [matchP2Mapped, ho] at hm
    | some o =>
      simp only [matchP2Mapped, ho, Option.map_some'] at hm
      have hp : (o.1, o.2.1) = a ∧ o.2.2 = r := by simpa using hm
      rw [← hp.1]
      simpa using matchP2At_num ho
  exact mem_finditerGFuel hP l.length l kn h'

theorem kind_to_std_total (raw : Str) :
    kind_to_std raw = "BIG".data ∨ kind_to_std raw = "REG".data := by
  simp only [kind_to_std]
  split
  · right; rfl
  · left; rfl

theorem scan_line_ok {line : Str} {gk : Int × Str} (h : gk ∈ scan_line_for_hits line) :
    0 ≤ gk.1 ∧ (gk.2 = "BIG".data ∨ gk.2 = "REG".data) := by
  unfold scan_line_for_hits at h
  rw [List.mem_append] at h
  rcases h with h | h
  · rw [List.mem_filterMap] at h
    obtain ⟨nk, hnk, hmap⟩ := h
    cases hn : num_to_int nk.1 with
    | none => rw [hn] at hmap; simp at hmap
    | some gi =>
      rw [hn] at hmap
      obtain rfl : (gi, kind_to_std nk.2) = gk := by simpa using hmap
      exact ⟨num_to_int_nonneg (finditer1_num hnk) hn, kind_to_std_total _⟩
  · rw [List.mem_filterMap] at h
    obtain ⟨kn, hkn, hmap⟩ := h
    cases hn : num_to_int kn.2 with
    | none => rw [hn] at hmap; simp at hmap
    | some gi =>
      rw [hn] at hmap
      obtain rfl : (gi, kind_to_std kn.1) = gk := by simpa using hmap
      exact ⟨num_to_int_nonneg (finditer2_num hkn) hn, kind_to_std_total _⟩

/-- The per-piece step of the line fallback of
`_parse_hit_records_from_html` (named so the folds can be reasoned about;
definitionally the fold bodies). -/
def parseStep (st : List Rec × List Str) (piece : Str) : List Rec × List Str :=
  let line := normalize_text piece
  if line = [] then st
  else
    let row_dai := extract_dai_from_text line
    (st.1 ++ (scan_line_for_hits line).map (fun gk =>
        { dai := to_dai_str row_dai, game := gk.1, kind := gk.2 }),
     match row_dai with
     | some d => st.2 ++ [d]
     | none => st.2)

/-- The per-row step of the table loop of `_parse_hit_records_from_html`. -/
def rowStep (st : List Rec × List Str) (tr : List Str) : List Rec × List Str :=
  let cells := tr.map normalize_text
  if cells.isEmpty then st
  else
    let row_text := joinSep [' '] cells
    let row_dai := extract_dai_from_text row_text
    (st.1 ++ (scan_line_for_hits row_text).map (fun gk =>
        { dai := to_dai_str row_dai, game := gk.1, kind := gk.2 }),
     match row_dai with
     | some d => st.2 ++ [d]
     | none => st.2)

/-- The per-selector step of the header-candidate loop. -/
def headCandStep (cs : List Str) (t : Str) : List Str :=
  match extract_dai_from_text t with
  | some d => cs ++ [d]
  | none => cs

theorem parse_html_eq (doc : HtmlDoc) :
    parse_hit_records_from_html doc =
      (let dai0 : List Str := match extract_dai_from_text doc.pageText with
         | some d => [d]
         | none => [];
       let tstate := doc.tables.foldl (fun st tbl => tbl.foldl rowStep st) ([], dai0);
       let lstate :=
         if tstate.1.isEmpty then
           (pySplitLines (normalize_text doc.pageText)).foldl parseStep tstate
         else tstate;
       (lstate.1, (doc.headerTexts.foldl headCandStep lstate.2).filter
          (fun d => !(d.isEmpty)))) := rfl

theorem parseStep_ok {st : List Rec × List Str} {p : Str}
    (hst : ∀ r ∈ st.1, RecOK r) : ∀ r ∈ (parseStep st p).1, RecOK r := by
  intro r hr
  simp only [parseStep] at hr
  by_cases hl : normalize_text p = []
  · rw [if_pos hl] at hr
    exact hst r hr
  · rw [if_neg hl] at hr
    rw [List.mem_append] at hr
    rcases hr with hr | hr
    · exact hst r hr
    · rw [List.mem_map] at hr
      obtain ⟨gk, hgk, rfl⟩ := hr
      have h := scan_line_ok hgk
      exact ⟨h.1, h.2⟩

theorem foldl_parseStep_ok (pieces : List Str) :
    ∀ st, (∀ r ∈ st.1, RecOK r) → ∀ r ∈ (pieces.foldl parseStep st).1, RecOK r := by
  induction pieces with
  | nil => intro st h; simpa using h
  | cons p t ih =>
    intro st h
    rw [List.foldl_cons]
    exact ih _ (parseStep_ok h)

theorem rowStep_ok {st : List Rec × List Str} {tr : List Str}
    (hst : ∀ r ∈ st.1, RecOK r) : ∀ r ∈ (rowStep st tr).1, RecOK r := by
  intro r hr
  simp only [rowStep] at hr
  by_cases hc : (tr.map normalize_text).isEmpty = true
  · rw [if_pos hc] at hr
    exact hst r hr
  · rw [if_neg hc] at hr
    rw [List.mem_append] at hr
    rcases hr with hr | hr
    · exact hst r hr
    · rw [List.mem_map] at hr
      obtain ⟨gk, hgk, rfl⟩ := hr
      have h := scan_line_ok hgk
      exact ⟨h.1, h.2⟩

theorem foldl_rowStep_ok (rows : List (List Str)) :
    ∀ st, (∀ r ∈ st.1, RecOK r) → ∀ r ∈ (rows.foldl rowStep st).1, RecOK r := by
  induction rows with
  | nil => intro st h; simpa using h
  | cons tr t ih =>
    intro st h
    rw [List.foldl_cons]
    exact ih _ (rowStep_ok h)

theorem foldl_tableStep_ok (tables : List (List (List Str))) :
    ∀ st : List Rec × List Str, (∀ r ∈ st.1, RecOK r) →
      ∀ r ∈ (tables.foldl (fun st tbl => tbl.foldl rowStep st) st).1, RecOK r := by
  induction tables with
  | nil => intro st h; simpa using h
  | cons tbl t ih =>
    intro st h
    rw [List.foldl_cons]
    exact ih _ (foldl_rowStep_ok tbl st h)

/-- Every record the markup/text parser produces is fully well-formed:
hit records only arise from `_scan_line_for_hits` captures. -/
theorem parse_html_ok (doc : HtmlDoc) :
    ∀ r ∈ (parse_hit_records_from_html doc).1, RecOK r := by
  have ht : ∀ r ∈ (doc.tables.foldl (fun st tbl => tbl.foldl rowStep st)
      ([], match extract_dai_from_text doc.pageText with
           | some d => [d] | none => [])).1, RecOK r :=
    foldl_tableStep_ok _ _ (by simp)
  rw [parse_html_eq]
  dsimp only
  split
  · exact foldl_parseStep_ok _ _ ht
  · exact ht

/-- The kind part of the record invariant; unlike `RecOK`, it also holds
for the records of the JSON dict walk, whose game counts keep their
sign. -/
def KindOK (r : Rec) : Prop :=
  r.kind = "BIG".data ∨ r.kind = "REG".data

theorem recOK_kind {r : Rec} (h : RecOK r) : KindOK r := h.2

mutual
theorem jWalk_kind : ∀ (v : JVal) (r : Rec), r ∈ (jWalk v).1 → KindOK r
  | .jobj fs, r, hr => by
    simp only [jWalk] at hr
    rw [List.mem_append] at hr
    rcases hr with hr | hr
    · split at hr
      · split at hr
        · simp only [List.mem_singleton] at hr
          subst hr
          exact kind_to_std_total _
        · simp at hr
      · simp at hr
    · exact jWalkObj_kind fs r hr
  | .jarr es, r, hr => by
    simp only [jWalk] at hr
    exact jWalkArr_kind es r hr
  | .jstr s, r, hr => by
    simp only [jWalk] at hr
    rw [List.mem_map] at hr
    obtain ⟨gk, hgk, rfl⟩ := hr
    exact (scan_line_ok hgk).2
  | .jnull, r, hr => by simp [jWalk] at hr
  | .jbool b, r, hr => by simp [jWalk] at hr
  | .jint n, r, hr => by simp [jWalk] at hr
theorem jWalkArr_kind : ∀ (es : JArr) (r : Rec), r ∈ (jWalkArr es).1 → KindOK r
  | .anil, r, hr => by simp [jWalkArr] at hr
  | .acons v t, r, hr => by
    simp only [jWalkArr] at hr
    rw [List.mem_append] at hr
    rcases hr with hr | hr
    · exact jWalk_kind v r hr
    · exact jWalkArr_kind t r hr
theorem jWalkObj_kind : ∀ (fs : JObj) (r : Rec), r ∈ (jWalkObj fs).1 → KindOK r
  | .onil, r, hr => by simp [jWalkObj] at hr
  | .ocons k v t, r, hr => by
    simp only [jWalkObj] at hr
    rw [List.mem_append] at hr
    rcases hr with hr | hr
    · exact jWalk_kind v r hr
    · exact jWalkObj_kind t r hr
end

theorem parse_json_kind (j : Option JVal) (txt : Str) :
    ∀ r ∈ (parse_hit_records_from_json j txt).1, KindOK r := by
  intro r hr
  cases j with
  | some v =>
    simp only [parse_hit_records_from_json] at hr
    exact jWalk_kind v r hr
  | none =>
    simp only [parse_hit_records_from_json] at hr
    rw [List.mem_map] at hr
    obtain ⟨gk, hgk, rfl⟩ := hr
    exact (scan_line_ok hgk).2

/-- The per-blob step of the first fold of `_parse_using_ctx_and_ring`. -/
def blobStep (st : List Rec × List Str) (blob : HtmlDoc) : List Rec × List Str :=
  let rc := parse_hit_records_from_html blob
  (st.1 ++ rc.1, st.2 ++ rc.2)

/-- The per-response step of the second fold of `_parse_using_ctx_and_ring`. -/
def ringStep (hrefHint : Option Str) (st : List Rec × List Str) (item : RingItem) :
    List Rec × List Str :=
  let cands1 : List Str := match hrefHint with
    | some hh => (match extract_dai_from_url hh with | some d => [d] | none => [])
    | none => []
  let cands2 : List Str := match extract_dai_from_url item.url with
    | some d => [d]
    | none => []
  if item.bodyText.isEmpty then (st.1, st.2 ++ cands1 ++ cands2)
  else
    let rc :=
      if strContains item.ct ("json".data) ||
         strEndsWith item.url (".json".data) then
        parse_hit_records_from_json item.bodyJson item.bodyText
      else parse_hit_records_from_html item.bodyDoc
    (st.1 ++ rc.1, st.2 ++ cands1 ++ cands2 ++ rc.2)

/-- The `(out_records, dai_cands)` state of `_parse_using_ctx_and_ring`
just before resolution. -/
def batch_state (blobs : List HtmlDoc) (ringItems : List RingItem)
    (hrefHint : Option Str) : List Rec × List Str :=
  ringItems.foldl (ringStep hrefHint) (blobs.foldl blobStep ([], []))

/-- The identifier-candidate pool gathered by one parse batch. -/
def batch_candidates (blobs : List HtmlDoc) (ringItems : List RingItem)
    (hrefHint : Option Str) : List Str :=
  (batch_state blobs ringItems hrefHint).2

theorem parse_using_eq (blobs : List HtmlDoc) (ringItems : List RingItem)
    (hrefHint : Option Str) :
    parse_using_ctx_and_ring blobs ringItems hrefHint =
      resolve_records (batch_state blobs ringItems hrefHint).1
        ((batch_candidates blobs ringItems hrefHint).map some) := rfl

theorem foldl_blobStep_ok (blobs : List HtmlDoc) :
    ∀ st, (∀ r ∈ st.1, KindOK r) → ∀ r ∈ (blobs.foldl blobStep st).1, KindOK r := by
  induction blobs with
  | nil => intro st h; simpa using h
  | cons b t ih =>
    intro st h
    rw [List.foldl_cons]
    refine ih _ ?_
    intro r hr
    simp only [blobStep] at hr
    rw [List.mem_append] at hr
    rcases hr with hr | hr
    · exact h r hr
    · exact recOK_kind (parse_html_ok b r hr)

theorem foldl_ringStep_ok (hh : Option Str) (items : List RingItem) :
    ∀ st, (∀ r ∈ st.1, KindOK r) → ∀ r ∈ (items.foldl (ringStep hh) st).1, KindOK r := by
  induction items with
  | nil => intro st h; simpa using h
  | cons it t ih =>
    intro st h
    rw [List.foldl_cons]
    refine ih _ ?_
    intro r hr
    simp only [ringStep] at hr
    by_cases he : it.bodyText.isEmpty = true
    · rw [if_pos he] at hr
      exact h r hr
    · rw [if_neg he] at hr
      rw [List.mem_append] at hr
      rcases hr with hr | hr
      · exact h r hr
      · by_cases hj : (strContains it.ct ("json".data) ||
            strEndsWith it.url (".json".data)) = true
        · rw [if_pos hj] at hr
          exact parse_json_kind _ _ r hr
        · rw [if_neg hj] at hr
          exact recOK_kind (parse_html_ok _ r hr)

theorem batch_state_ok (blobs : List HtmlDoc) (ringItems : List RingItem)
    (hh : Option Str) :
    ∀ r ∈ (batch_state blobs ringItems hh).1, KindOK r := by
  unfold batch_state
  exact foldl_ringStep_ok hh ringItems _ (foldl_blobStep_ok blobs _ (by simp))

theorem resolve_records_ok {recs : List Rec} {cands : List (Option Str)}
    (h : ∀ r ∈ recs, KindOK r) : ∀ r ∈ resolve_records recs cands, KindOK r := by
  intro r hr
  simp only [resolve_records, List.mem_map] at hr
  obtain ⟨r0, hr0, rfl⟩ := hr
  have h0 := h r0 hr0
  split <;> exact h0

theorem parse_using_ok (blobs : List HtmlDoc) (ringItems : List RingItem)
    (hh : Option Str) :
    ∀ r ∈ parse_using_ctx_and_ring blobs ringItems hh, KindOK r := by
  rw [parse_using_eq]
  exact resolve_records_ok (batch_state_ok blobs ringItems hh)

theorem parseVisit_ok (v : VisitOutcome) : ∀ r ∈ parseVisit v, KindOK r :=
  parse_using_ok _ _ _

theorem tier1Loop_ok (env : DrillEnv) :
    ∀ (items : List LinkItem) (vh vd : List Str) (acc : List Rec),
      (∀ r ∈ acc, KindOK r) → ∀ r ∈ (tier1Loop env items vh vd acc).2.2, KindOK r := by
  intro items
  induction items with
  | nil => intro vh vd acc h; simpa [tier1Loop] using h
  | cons it rest ih =>
    intro vh vd acc h
    have hApp : ∀ (v : VisitOutcome) (r : Rec), r ∈ acc ++ parseVisit v → KindOK r := by
      intro v r hr
      rw [List.mem_append] at hr
      rcases hr with hr | hr
      · exact h r hr
      · exact parseVisit_ok _ r hr
    simp only [tier1Loop]
    repeat' split
    all_goals first
      | exact ih _ _ _ h
      | exact ih _ _ _ (hApp _)

theorem v06Loop_ok (env : DrillEnv) :
    ∀ (ds vd : List Str) (acc : List Rec),
      (∀ r ∈ acc, KindOK r) → ∀ r ∈ (v06Loop env ds vd acc).2, KindOK r := by
  intro ds
  induction ds with
  | nil => intro vd acc h; simpa [v06Loop] using h
  | cons d rest ih =>
    intro vd acc h
    simp only [v06Loop]
    split
    · exact ih _ _ h
    · split
      · exact ih _ _ h
      · refine ih _ _ ?_
        intro r hr
        rw [List.mem_append] at hr
        rcases hr with hr | hr
        · exact h r hr
        · exact parseVisit_ok _ r hr

theorem tier3Loop_ok (env : DrillEnv) :
    ∀ (ds : List (Option Str)) (acc : List Rec),
      (∀ r ∈ acc, KindOK r) → ∀ r ∈ tier3Loop env ds acc, KindOK r := by
  intro ds
  induction ds with
  | nil => intro acc h; simpa [tier3Loop] using h
  | cons d rest ih =>
    intro acc h
    cases d with
    | none => simpa [tier3Loop] using ih _ h
    | some s =>
      simp only [tier3Loop]
      split
      · exact ih _ h
      · split
        · exact ih _ h
        · refine ih _ ?_
          intro r hr
          rw [List.mem_append] at hr
          rcases hr with hr | hr
          · exact h r hr
          · exact parseVisit_ok _ r hr

theorem drill_records_ok (env : DrillEnv) (limit : Option Nat) :
    ∀ r ∈ (drill_dai_links env limit).records, KindOK r := by
  have h1 : ∀ r ∈ (drillT1 env limit).2.2, KindOK r := by
    unfold drillT1
    exact tier1Loop_ok env _ _ _ _ (by simp)
  have h2 : ∀ r ∈ drillRec12 env limit, KindOK r := by
    unfold drillRec12 drillT2
    exact v06Loop_ok env _ _ _ h1
  have hProbe : ∀ r ∈ drillRec12 env limit ++ parseVisit env.probe, KindOK r := by
    intro r hr
    rw [List.mem_append] at hr
    rcases hr with hr | hr
    · exact h2 r hr
    · exact parseVisit_ok _ r hr
  have h3 : ∀ r ∈ drillRec3 env limit, KindOK r := by
    unfold drillRec3
    split
    · simp only [drillT3Body]
      repeat' split
      all_goals first
        | exact h2
        | exact hProbe
        | exact tier3Loop_ok env _ _ hProbe
    · exact h2
  have h4 : ∀ r ∈ drillRec4 env limit, KindOK r := by
    unfold drillRec4
    split
    · simp only [drillT4Body]
      repeat' split
      all_goals first
        | exact h3
        | exact v06Loop_ok env _ _ _ h3
    · exact h3
  show ∀ r ∈ drillRec5 env limit, KindOK r
  unfold drillRec5
  split
  · intro r hr
    rw [List.mem_append] at hr
    rcases hr with hr | hr
    · exact h4 r hr
    · exact parseVisit_ok _ r hr
  · exact h4

theorem collect_card_records_ok (env : DrillEnv) (limit : Option Nat) :
    ∀ r ∈ collect_card_records env limit, KindOK r := by
  simp only [collect_card_records]
  split
  · intro r hr
    exact parseVisit_ok _ r hr
  · exact drill_records_ok env limit

theorem parse_using_dai_none (blobs : List HtmlDoc) (ringItems : List RingItem)
    (hh : Option Str) :
    ∀ r ∈ parse_using_ctx_and_ring blobs ringItems hh, r.dai = none →
      freq_pick ((batch_candidates blobs ringItems hh).map some) = none := by
  intro r hr hd
  rw [parse_using_eq] at hr
  simp only [resolve_records, List.mem_map] at hr
  obtain ⟨r0, hr0, rfl⟩ := hr
  by_cases h0 : r0.dai = none
  · rw [if_pos h0] at hd
    exact hd
  · rw [if_neg h0] at hd
    exact absurd hd h0

/-- C7 (amended): every record handed to the aggregator's row builder has
kind exactly `BIG` or `REG`.  The other two clauses of the claim hold only
in restricted forms.  Identifier: a record of a parse batch keeps an
absent identifier exactly when the frequency vote over that batch's own
candidate pool yields nothing — not, as claimed, only when no strategy of
the whole card's cascade produced any candidate (each tier parses and
resolves its visits as separate batches).  Game count: `gameCount ≥ 0`
holds for every record the markup/text parser emits (their game counts
come from `RE_NUM_G` captures, which hold no sign), but not for the JSON
dict walk, which feeds arbitrary values through `int(str(...))` — see the
counterexample for both refuted clauses. -/
theorem C7_invariants :
    (∀ (env : DrillEnv) (limit : Option Nat),
        ∀ r ∈ collect_card_records env limit,
          r.kind = "BIG".data ∨ r.kind = "REG".data)
    ∧ (∀ (blobs : List HtmlDoc) (ringItems : List RingItem) (hh : Option Str),
        ∀ r ∈ parse_using_ctx_and_ring blobs ringItems hh, r.dai = none →
          freq_pick ((batch_candidates blobs ringItems hh).map some) = none)
    ∧ (∀ (doc : HtmlDoc), ∀ r ∈ (parse_hit_records_from_html doc).1, 0 ≤ r.game) := by
  refine ⟨?_, ?_, ?_⟩
  · intro env limit r hr
    exact collect_card_records_ok env limit r hr
  · intro blobs ringItems hh r hr hd
    exact parse_using_dai_none blobs ringItems hh r hr hd
  · intro doc r hr
    exact (parse_html_ok doc r hr).1

/-- A card whose first direct link yields a record without an identifier
and whose second direct link yields identifier candidates but no record. -/
def envC7 : DrillEnv :=
  { linkItems := [⟨"a1".data, [], []⟩, ⟨"b2".data, [], []⟩],
    linkItemsRetry := [],
    visitHref := fun s =>
      if s = "a1".data then ⟨[⟨"BIG45".data, [], []⟩], []⟩
      else ⟨[⟨"台番:321".data, [], []⟩], []⟩,
    visitDaiText := fun _ => ⟨[], []⟩,
    attrBags := [],
    visitV06 := fun _ => none,
    probe := ⟨[], []⟩,
    blobsT3 := [],
    blobsT4 := [],
    current := ⟨[], []⟩,
    currentRetry := ⟨[], []⟩ }

/-- A JSON object body binding the game key `g` to `-5` and the kind key
`k` to `BIG`. -/
def jNegBody : JVal :=
  .jobj (.ocons ("g".data) (.jint (-5))
    (.ocons ("k".data) (.jstr ("BIG".data)) .onil))

/-- A captured json-typed response carrying `jNegBody`. -/
def ringNeg : RingItem :=
  { url := "resp.json".data,
    ct := "application/json".data,
    bodyText := "\x7b\"g\": -5, \"k\": \"BIG\"\x7d".data,
    bodyJson := some jNegBody,
    bodyDoc := ⟨[], [], []⟩ }

/-- A card whose single tier-1 visit captures only the JSON response
`ringNeg`. -/
def envC7neg : DrillEnv :=
  { linkItems := [⟨"a1".data, [], []⟩],
    linkItemsRetry := [],
    visitHref := fun _ => ⟨[], [ringNeg]⟩,
    visitDaiText := fun _ => ⟨[], []⟩,
    attrBags := [],
    visitV06 := fun _ => none,
    probe := ⟨[], []⟩,
    blobsT3 := [],
    blobsT4 := [],
    current := ⟨[], []⟩,
    currentRetry := ⟨[], []⟩ }

/-- Witness for C7 at `envC7`: the single surviving record `(45, BIG)`
carries a standardized kind. -/
theorem C7_invariants_witness :
    Rec.kind ⟨none, 45, "BIG".data⟩ = "BIG".data
    ∨ Rec.kind ⟨none, 45, "BIG".data⟩ = "REG".data :=
  C7_invariants.1 envC7 (some 240) ⟨none, 45, "BIG".data⟩ (by decide)

/-- C7 counterexample, refuting two clauses of the original claim.  Game
sign: on `envC7neg` the cascade's only visit captures a JSON body whose
game key holds `-5`; `int(str(-5))` succeeds, so the record `(-5, BIG)`
survives to the aggregator with a negative game count.  Whole-card
identifier: on `envC7` tier 1 visits both links; the second visit's batch
gathers the candidates `321, 321` (frequency pick `321`), yet the card's
final record — produced by the first visit's batch, which had no
candidates — keeps an absent identifier. -/
theorem C7_counterexample :
    (collect_card_records envC7neg (some 240)).map Rec.game = [(-5 : Int)]
    ∧ (collect_card_records envC7neg (some 240)).map Rec.kind = ["BIG".data]
    ∧ (collect_card_records envC7 (some 240)).map Rec.dai = [none]
    ∧ (envC7.visitHref ("b2".data)).blobs = [⟨"台番:321".data, [], []⟩]
    ∧ batch_candidates [⟨"台番:321".data, [], []⟩] [] none = ["321".data, "321".data]
    ∧ freq_pick ((batch_candidates [⟨"台番:321".data, [], []⟩] [] none).map some) =
        some ("321".data) := by
  decide

/-! ### Claim C1: inline hit forms and kind standardization -/

theorem digit_not_space {c : Char} (h : isAsciiDigit c = true) : isSpaceChar c = false := by
  simp only [isAsciiDigit, decide_eq_true_eq] at h
  simp only [isSpaceChar, decide_eq_false_iff_not]
  omega

theorem digit_num {c : Char} (h : isAsciiDigit c = true) : isNumChar c = true := by
  simp only [isAsciiDigit, decide_eq_true_eq] at h
  simp only [isNumChar, decide_eq_true_eq]
  omega

theorem dropWhile_of_all_not {p : Char → Bool} {l : Str}
    (h : l.all (fun c => !(p c)) = true) : l.dropWhile p = l := by
  cases l with
  | nil => rfl
  | cons c cs =>
    simp only [List.all_cons, Bool.and_eq_true, Bool.not_eq_true'] at h
    exact List.dropWhile_cons_of_neg (by intro hc; rw [h.1] at hc; simp at hc)

theorem pyStrip_id {l : Str} (h : l.all (fun c => !(isSpaceChar c)) = true) :
    pyStrip l = l := by
  unfold pyStrip
  rw [dropWhile_of_all_not h, dropWhile_of_all_not (by simpa using h),
    List.reverse_reverse]

theorem collapse_id : ∀ {l : Str}, l.all (fun c => !(isSpaceChar c)) = true →
    collapse_ws l = l := by
  intro l
  induction l with
  | nil => intro _; rfl
  | cons a t ih =>
    intro h
    simp only [List.all_cons, Bool.and_eq_true, Bool.not_eq_true'] at h
    cases t with
    | nil => simp [collapse_ws, h.1]
    | cons b t' =>
      have hb : isSpaceChar b = false := by
        have := h.2
        simp only [List.all_cons, Bool.and_eq_true, Bool.not_eq_true'] at this
        exact this.1
      have e1 : (isSpaceChar a && isSpaceChar b) = false := by rw [h.1]; rfl
      simp only [collapse_ws]
      rw [if_neg (by rw [e1]; simp), if_neg (by rw [h.1]; simp)]
      congr 1
      exact ih (by simpa using h.2)

theorem nfkcStr_digits {l : Str} (h : l.all isAsciiDigit = true) : nfkcStr l = l := by
  induction l with
  | nil => rfl
  | cons c cs ih =>
    simp only [List.all_cons, Bool.and_eq_true] at h
    have hc : nfkcChar c = [c] := by
      have := h.1
      simp only [isAsciiDigit, decide_eq_true_eq] at this
      unfold nfkcChar
      rw [if_neg (by omega), if_neg (by omega)]
    rw [nfkcStr, List.flatMap_cons, hc]
    have := ih h.2
    rw [nfkcStr] at this
    rw [this]
    rfl

theorem normalize_digits_id {ds : Str} (h : ds.all isAsciiDigit = true) :
    normalize_text ds = ds := by
  unfold normalize_text
  rw [nfkcStr_digits h]
  have hm : ds.map (fun c => if c == ',' then ' ' else c) = ds := by
    have : ∀ c ∈ ds, (if c == ',' then ' ' else c) = c := by
      intro c hc
      rw [if_neg]
      intro e
      have hc2 := (List.all_eq_true.mp h) c hc
      rw [eq_of_beq e] at hc2
      exact absurd hc2 (by decide)
    rw [List.map_congr_left this]
    simp
  rw [hm]
  have hns : ds.all (fun c => !(isSpaceChar c)) = true := by
    rw [List.all_eq_true] at h ⊢
    intro c hc
    simp [digit_not_space (h c hc)]
  rw [collapse_id hns, pyStrip_id hns]

theorem num_to_int_digits {ds : Str} (hne : ds ≠ []) (h : ds.all isAsciiDigit = true) :
    num_to_int ds = some ((natOfDigits ds : Int)) := by
  unfold num_to_int
  rw [normalize_digits_id h]
  have hf : ds.filter (fun c => !(c == ' ')) = ds := by
    apply List.filter_eq_self.mpr
    intro c hc
    have hc2 := (List.all_eq_true.mp h) c hc
    simp only [Bool.not_eq_true']
    refine beq_eq_false_iff_ne.mpr ?_
    intro e
    rw [e] at hc2
    exact absurd hc2 (by decide)
  rw [hf]
  cases ds with
  | nil => exact absurd rfl hne
  | cons c rest =>
    simp only [List.all_cons, Bool.and_eq_true] at h
    have hcm : ¬(c = '-') := by
      intro e; subst e; exact absurd h.1 (by decide)
    have hcp : ¬(c = '+') := by
      intro e; subst e; exact absurd h.1 (by decide)
    have hall2 : (c :: rest).all isAsciiDigit = true := by simp [h.1, h.2]
    rw [pyIntOfString, if_neg hcm, if_neg hcp, if_pos hall2]

/-- The kind tokens of `RE_KIND`, in the alternation's spelling (the
`B\W*B` / `R\W*B` alternatives contribute `BB` and `RB`). -/
def kindTokens : List Str :=
  ["BIG".data, "ＢＩＧ".data, "ビッグ".data, "REG".data, "ＲＥＧ".data,
   "レギュラ".data, "RB".data, "ＲＢ".data, "BB".data, "ＢＢ".data]

/-- Modelled from the spec: the claim's REG condition — the folded
upper-cased token contains "REG", or contains both `R` and `B` while not
being the literal "BB", or contains the Japanese synonym stem "レギュ". -/
def kindRegSpec (raw : Str) : Bool :=
  let k := upperStr (nfkcStr raw)
  strContains k ("REG".data) ||
  (!(k == "BB".data) && (k.contains 'R' && k.contains 'B')) ||
  strContains k ("レギュ".data)

theorem kind_to_std_REG_iff (raw : Str) :
    kind_to_std raw = "REG".data ↔ kindRegSpec raw = true := by
  simp only [kind_to_std, kindRegSpec]
  set k := upperStr (nfkcStr raw) with hk
  by_cases h1 : strContains k ("REG".data) = true
  · simp [h1]
  · by_cases h4 : (k == ("RB".data)) = true
    · have hkRB : k = "RB".data := eq_of_beq h4
      rw [hkRB]
      decide
    · by_cases h2 : (k.contains 'R' && k.contains 'B') = true
      · have h2' := h2
        rw [Bool.and_eq_true] at h2'
        have hBB : (k == "BB".data) = false := by
          by_contra hb
          rw [Bool.not_eq_false] at hb
          have hR := h2'.1
          rw [eq_of_beq hb] at hR
          exact absurd hR (by decide)
        rw [if_pos (by rw [h2]; simp only [Bool.or_true, Bool.true_or])]
        constructor
        · intro _
          rw [hBB, h2]
          simp only [Bool.not_false, Bool.true_and, Bool.or_true, Bool.true_or]
        · intro _
          rfl
      · by_cases h3 : strContains k ("レギュ".data) = true
        · rw [if_pos (by rw [h3]; simp only [Bool.or_true, Bool.true_or])]
          constructor
          · intro _
            rw [h3]
            simp only [Bool.or_true, Bool.true_or]
          · intro _
            rfl
        · have e1 : strContains k ("REG".data) = false := by
            rwa [Bool.not_eq_true] at h1
          have e2 : (k.contains 'R' && k.contains 'B') = false := by
            rwa [Bool.not_eq_true] at h2
          have e3 : strContains k ("レギュ".data) = false := by
            rwa [Bool.not_eq_true] at h3
          have e4 : (k == ("RB".data)) = false := by
            rwa [Bool.not_eq_true] at h4
          have hcond : (strContains k ("REG".data) ||
              (k.contains 'R' && k.contains 'B') ||
              strContains k ("レギュ".data) || (k == ("RB".data))) = false := by
            rw [e1, e2, e3, e4]
            rfl
          rw [if_neg (by rw [hcond]; simp)]
          constructor
          · intro he; exact absurd he (by decide)
          · intro he
            rw [e1, e2, e3] at he
            simp at he

/-- Characters at which neither inline hit pattern can start a match: not a
num character and not a first character (under `re.IGNORECASE` folding) of
any `RE_KIND` alternative. -/
def neutralChar (c : Char) : Bool :=
  decide (¬(48 ≤ c.toNat ∧ c.toNat ≤ 57) ∧ ¬(0xFF10 ≤ c.toNat ∧ c.toNat ≤ 0xFF19) ∧
          c.toNat ≠ 44 ∧
          c.toNat ≠ 66 ∧ c.toNat ≠ 98 ∧ c.toNat ≠ 0xFF22 ∧ c.toNat ≠ 0xFF42 ∧
          c.toNat ≠ 82 ∧ c.toNat ≠ 114 ∧ c.toNat ≠ 0xFF32 ∧ c.toNat ≠ 0xFF52 ∧
          c.toNat ≠ 0x30D3 ∧ c.toNat ≠ 0x30EC)

theorem toNat_ofNat_high {n : Nat} (h1 : 0xE000 ≤ n) (h2 : n < 0x110000) :
    (Char.ofNat n).toNat = n := by
  unfold Char.ofNat
  rw [dif_pos (Or.inr ⟨h1, h2⟩)]
  rfl

theorem charFold_toNat (c : Char) : (charFold c).toNat =
    if (65 ≤ c.toNat ∧ c.toNat ≤ 90) ∨ (0xFF21 ≤ c.toNat ∧ c.toNat ≤ 0xFF3A)
    then c.toNat + 32 else c.toNat := by
  unfold charFold
  by_cases h1 : 65 ≤ c.toNat ∧ c.toNat ≤ 90
  · rw [if_pos h1, if_pos (Or.inl h1), toNat_ofNat_valid (by omega)]
  · rw [if_neg h1]
    by_cases h2 : 0xFF21 ≤ c.toNat ∧ c.toNat ≤ 0xFF3A
    · rw [if_pos h2, if_pos (Or.inr h2), toNat_ofNat_high (by omega) (by omega)]
    · rw [if_neg h2, if_neg (by tauto)]

theorem charIEq_false_of_fold {p c : Char}
    (h : (charFold p).toNat ≠ (charFold c).toNat) : charIEq p c = false := by
  unfold charIEq
  rw [beq_eq_false_iff_ne]
  intro e
  exact h (congrArg Char.toNat e)

theorem litCI_head_false {p c : Char} {ps cs : Str} (h : charIEq p c = false) :
    litCI (p :: ps) (c :: cs) = none := by
  simp [litCI, h]

theorem sepPairCands_head_false {p1 p2 c : Char} {cs : Str} (h : charIEq p1 c = false) :
    sepPairCands p1 p2 (c :: cs) = [] := by
  simp [sepPairCands, h]

theorem kindCands_nil_neutral {c : Char} (cs : Str) (h : neutralChar c = true) :
    kindCands (c :: cs) = [] := by
  simp only [neutralChar, decide_eq_true_eq] at h
  obtain ⟨hn1, hn2, hn3, hn4, hn5, hn6, hn7, hn8, hn9, hn10, hn11, hn12, hn13⟩ := h
  have hB : charIEq 'B' c = false := by
    apply charIEq_false_of_fold
    rw [show (charFold 'B').toNat = 98 from rfl, charFold_toNat]
    split
    · omega
    · omega
  have hFB : charIEq 'Ｂ' c = false := by
    apply charIEq_false_of_fold
    rw [show (charFold 'Ｂ').toNat = 0xFF42 from rfl, charFold_toNat]
    split
    · omega
    · omega
  have hR : charIEq 'R' c = false := by
    apply charIEq_false_of_fold
    rw [show (charFold 'R').toNat = 114 from rfl, charFold_toNat]
    split
    · omega
    · omega
  have hFR : charIEq 'Ｒ' c = false := by
    apply charIEq_false_of_fold
    rw [show (charFold 'Ｒ').toNat = 0xFF52 from rfl, charFold_toNat]
    split
    · omega
    · omega
  have hBi : charIEq 'ビ' c = false := by
    apply charIEq_false_of_fold
    rw [show (charFold 'ビ').toNat = 0x30D3 from rfl, charFold_toNat]
    split
    · omega
    · omega
  have hRe : charIEq 'レ' c = false := by
    apply charIEq_false_of_fold
    rw [show (charFold 'レ').toNat = 0x30EC from rfl, charFold_toNat]
    split
    · omega
    · omega
  have e1 : litCI ("BIG".data) (c :: cs) = none := litCI_head_false hB
  have e2 : litCI ("ＢＩＧ".data) (c :: cs) = none := litCI_head_false hFB
  have e3 : sepPairCands 'B' 'B' (c :: cs) = [] := sepPairCands_head_false hB
  have e4 : litCI ("ビッグ".data) (c :: cs) = none := litCI_head_false hBi
  have e5 : litCI ("REG".data) (c :: cs) = none := litCI_head_false hR
  have e6 : litCI ("ＲＥＧ".data) (c :: cs) = none := litCI_head_false hFR
  have e7 : sepPairCands 'R' 'B' (c :: cs) = [] := sepPairCands_head_false hR
  have e8 : litCI ("レギュラ".data) (c :: cs) = none := litCI_head_false hRe
  have e9 : litCI ("RB".data) (c :: cs) = none := litCI_head_false hR
  have e10 : litCI ("ＲＢ".data) (c :: cs) = none := litCI_head_false hFR
  have e11 : litCI ("BB".data) (c :: cs) = none := litCI_head_false hB
  have e12 : litCI ("ＢＢ".data) (c :: cs) = none := litCI_head_false hFB
  unfold kindCands
  rw [e1, e2, e3, e4, e5, e6, e7, e8, e9, e10, e11, e12]
  rfl

theorem matchP2At_no_kind {c : Char} {cs : Str} (h : neutralChar c = true) :
    matchP2At (c :: cs) = none := by
  unfold matchP2At
  rw [kindCands_nil_neutral cs h]
  rfl

theorem neutral_not_num {c : Char} (h : neutralChar c = true) : isNumChar c = false := by
  simp only [neutralChar, decide_eq_true_eq] at h
  simp only [isNumChar, decide_eq_false_iff_not]
  omega

theorem matchP1At_no_num {c : Char} {cs : Str} (h : isNumChar c = false) :
    matchP1At (c :: cs) = none := by
  unfold matchP1At
  have hn : numCands (c :: cs) = [] := by
    simp [numCands, countLeading_cons_false _ h]
  rw [hn]
  rfl

theorem finditer1_skip {pre : Str} (rest : Str)
    (h : pre.all (fun c => !(isNumChar c)) = true) :
    finditer1 (pre ++ rest) = finditer1 rest := by
  induction pre with
  | nil => rfl
  | cons c p ih =>
    simp only [List.all_cons, Bool.and_eq_true, Bool.not_eq_true'] at h
    rw [List.cons_append, finditer1_cons, matchP1At_no_num h.1]
    exact ih (by simpa using h.2)

theorem finditer2_skip {pre : Str} (rest : Str) (h : pre.all neutralChar = true) :
    finditer2 (pre ++ rest) = finditer2 rest := by
  induction pre with
  | nil => rfl
  | cons c p ih =>
    simp only [List.all_cons, Bool.and_eq_true] at h
    rw [List.cons_append, finditer2_cons, matchP2At_no_kind h.1]
    exact ih h.2

theorem head?_cons_decomp {α : Type} {l : List α} {a : α} (h : l.head? = some a) :
    ∃ t, l = a :: t := by
  cases l with
  | nil => simp at h
  | cons x t =>
    simp only [List.head?_cons, Option.some.injEq] at h
    exact ⟨t, by rw [h]⟩

theorem kindCands_head_cons {tok rest : Str}
    (hTok : (kindCands (tok ++ rest)).head? = some (tok, rest)) :
    ∃ t, kindCands (tok ++ rest) = (tok, rest) :: t := by
  cases hk : kindCands (tok ++ rest) with
  | nil => rw [hk] at hTok; simp at hTok
  | cons kr t =>
    rw [hk] at hTok
    simp only [List.head?_cons, Option.some.injEq] at hTok
    exact ⟨t, by rw [hTok]⟩

theorem all_digit_count {ds : Str} (hdig : ds.all isAsciiDigit = true) :
    ∀ c ∈ ds, isNumChar c = true :=
  fun c hc => digit_num ((List.all_eq_true.mp hdig) c hc)

theorem matchP1At_form (ds tok post : Str)
    (hne : ds ≠ []) (hlen : ds.length ≤ 6) (hdig : ds.all isAsciiDigit = true)
    (hTok : ∀ rest, (kindCands (tok ++ rest)).head? = some (tok, rest))
    (hTokSp : ∀ r, countLeading isSpaceChar (tok ++ r) = 0) :
    matchP1At (ds ++ 'G' :: ' ' :: (tok ++ post)) = some (ds, tok, post) := by
  obtain ⟨tkc, hkc⟩ := kindCands_head_cons (hTok post)
  have hrun1 : countLeading isSpaceChar (' ' :: (tok ++ post)) = 1 := by
    rw [show countLeading isSpaceChar (' ' :: (tok ++ post)) =
      countLeading isSpaceChar (tok ++ post) + 1 from rfl, hTokSp post]
  have hsc2 : starCands isSpaceChar (' ' :: (tok ++ post)) =
      (tok ++ post) :: [' ' :: (tok ++ post)] := by
    unfold starCands
    rw [hrun1]
    simp [List.range_succ]
  have hopt : optGCands ('G' :: ' ' :: (tok ++ post)) =
      (' ' :: (tok ++ post)) :: ['G' :: ' ' :: (tok ++ post)] := rfl
  have hsc1 : starCands isSpaceChar ('G' :: ' ' :: (tok ++ post)) =
      ['G' :: ' ' :: (tok ++ post)] := rfl
  have hcl : countLeading isNumChar (ds ++ 'G' :: ' ' :: (tok ++ post)) = ds.length := by
    rw [countLeading_append_all _ (all_digit_count hdig)]
    rfl
  have hmin : min 6 (countLeading isNumChar (ds ++ 'G' :: ' ' :: (tok ++ post))) =
      ds.length := by
    rw [hcl]
    omega
  obtain ⟨d0, ds', rfl⟩ : ∃ d0 ds', ds = d0 :: ds' := by
    cases ds with
    | nil => exact absurd rfl hne
    | cons a b => exact ⟨a, b, rfl⟩
  obtain ⟨tnc, hnc⟩ : ∃ t, numCands ((d0 :: ds') ++ 'G' :: ' ' :: (tok ++ post)) =
      ((d0 :: ds'), 'G' :: ' ' :: (tok ++ post)) :: t := by
    apply head?_cons_decomp
    unfold numCands
    rw [hmin, show (d0 :: ds').length = ds'.length + 1 from rfl]
    dsimp only
    rw [List.range_succ_eq_map, List.map_cons, List.head?_cons, Nat.sub_zero,
      show (ds'.length + 1) = (d0 :: ds').length from rfl,
      List.take_left, List.drop_left]
  unfold matchP1At
  rw [hnc]
  apply firstSome_cons_some
  show firstSome (starCands isSpaceChar ('G' :: ' ' :: (tok ++ post))) _ = _
  rw [hsc1]
  apply firstSome_cons_some
  show firstSome (optGCands ('G' :: ' ' :: (tok ++ post))) _ = _
  rw [hopt]
  apply firstSome_cons_some
  show firstSome (starCands isSpaceChar (' ' :: (tok ++ post))) _ = _
  rw [hsc2]
  apply firstSome_cons_some
  show (match kindCands (tok ++ post) with
        | [] => none
        | kr :: _ => some ((d0 :: ds'), kr.1, kr.2)) = some ((d0 :: ds'), tok, post)
  rw [hkc]

theorem matchP2At_form (ds tok post : Str)
    (hne : ds ≠ []) (hlen : ds.length ≤ 6) (hdig : ds.all isAsciiDigit = true)
    (hTok : ∀ rest, (kindCands (tok ++ rest)).head? = some (tok, rest)) :
    matchP2At (tok ++ (ds ++ 'G' :: post)) = some (tok, ds, post) := by
  obtain ⟨tkc, hkc⟩ := kindCands_head_cons (hTok (ds ++ 'G' :: post))
  obtain ⟨d0, ds', rfl⟩ : ∃ d0 ds', ds = d0 :: ds' := by
    cases ds with
    | nil => exact absurd rfl hne
    | cons a b => exact ⟨a, b, rfl⟩
  have hd0 : isSpaceChar d0 = false := by
    apply digit_not_space
    have h := hdig
    simp only [List.all_cons, Bool.and_eq_true] at h
    exact h.1
  have hrun0 : countLeading isSpaceChar ((d0 :: ds') ++ 'G' :: post) = 0 := by
    rw [List.cons_append]
    exact countLeading_cons_false _ hd0
  have hsc0 : starCands isSpaceChar ((d0 :: ds') ++ 'G' :: post) =
      [(d0 :: ds') ++ 'G' :: post] := by
    unfold starCands
    rw [hrun0]
    rfl
  have hcl : countLeading isNumChar ((d0 :: ds') ++ 'G' :: post) = (d0 :: ds').length := by
    rw [countLeading_append_all _ (all_digit_count hdig)]
    rfl
  have hmin : min 6 (countLeading isNumChar ((d0 :: ds') ++ 'G' :: post)) =
      (d0 :: ds').length := by
    rw [hcl]
    omega
  obtain ⟨tnc, hnc⟩ : ∃ t, numCands ((d0 :: ds') ++ 'G' :: post) =
      ((d0 :: ds'), 'G' :: post) :: t := by
    apply head?_cons_decomp
    unfold numCands
    rw [hmin, show (d0 :: ds').length = ds'.length + 1 from rfl]
    dsimp only
    rw [List.range_succ_eq_map, List.map_cons, List.head?_cons, Nat.sub_zero,
      show (ds'.length + 1) = (d0 :: ds').length from rfl,
      List.take_left, List.drop_left]
  have hsc1 : starCands isSpaceChar ('G' :: post) = ['G' :: post] := rfl
  have hopt : optGCands ('G' :: post) = post :: ['G' :: post] := rfl
  unfold matchP2At
  rw [hkc]
  apply firstSome_cons_some
  show firstSome (starCands isSpaceChar ((d0 :: ds') ++ 'G' :: post)) _ = _
  rw [hsc0]
  apply firstSome_cons_some
  show firstSome (numCands ((d0 :: ds') ++ 'G' :: post)) _ = _
  rw [hnc]
  apply firstSome_cons_some
  show firstSome (starCands isSpaceChar ('G' :: post)) _ = _
  rw [hsc1]
  apply firstSome_cons_some
  show (match optGCands ('G' :: post) with
        | [] => none
        | r5 :: _ => some (tok, (d0 :: ds'), r5)) = some (tok, (d0 :: ds'), post)
  rw [hopt]

theorem matchP2At_form_end (ds tok : Str)
    (hne : ds ≠ []) (hlen : ds.length ≤ 6) (hdig : ds.all isAsciiDigit = true)
    (hTok : ∀ rest, (kindCands (tok ++ rest)).head? = some (tok, rest)) :
    matchP2At (tok ++ ds) = some (tok, ds, []) := by
  obtain ⟨tkc, hkc⟩ := kindCands_head_cons (hTok ds)
  obtain ⟨d0, ds', rfl⟩ : ∃ d0 ds', ds = d0 :: ds' := by
    cases ds with
    | nil => exact absurd rfl hne
    | cons a b => exact ⟨a, b, rfl⟩
  have hd0 : isSpaceChar d0 = false := by
    apply digit_not_space
    have h := hdig
    simp only [List.all_cons, Bool.and_eq_true] at h
    exact h.1
  have hrun0 : countLeading isSpaceChar (d0 :: ds') = 0 := countLeading_cons_false _ hd0
  have hsc0 : starCands isSpaceChar (d0 :: ds') = [d0 :: ds'] := by
    unfold starCands
    rw [hrun0]
    rfl
  have hcl : countLeading isNumChar (d0 :: ds') = (d0 :: ds').length := by
    have h := countLeading_append_all ([] : Str) (all_digit_count hdig)
    rw [List.append_nil] at h
    rw [h]
    rfl
  have hmin : min 6 (countLeading isNumChar (d0 :: ds')) = (d0 :: ds').length := by
    rw [hcl]
    omega
  obtain ⟨tnc, hnc⟩ : ∃ t, numCands (d0 :: ds') = ((d0 :: ds'), ([] : Str)) :: t := by
    apply head?_cons_decomp
    unfold numCands
    rw [hmin, show (d0 :: ds').length = ds'.length + 1 from rfl]
    dsimp only
    rw [List.range_succ_eq_map, List.map_cons, List.head?_cons, Nat.sub_zero,
      show (ds'.length + 1) = (d0 :: ds').length from rfl,
      List.take_length, List.drop_length]
  have hsc1 : starCands isSpaceChar ([] : Str) = [[]] := rfl
  have hopt : optGCands ([] : Str) = [[]] := rfl
  unfold matchP2At
  rw [hkc]
  apply firstSome_cons_some
  show firstSome (starCands isSpaceChar (d0 :: ds')) _ = _
  rw [hsc0]
  apply firstSome_cons_some
  show firstSome (numCands (d0 :: ds')) _ = _
  rw [hnc]
  apply firstSome_cons_some
  show firstSome (starCands isSpaceChar ([] : Str)) _ = _
  rw [hsc1]
  apply firstSome_cons_some
  show (match optGCands ([] : Str) with
        | [] => none
        | r5 :: _ => some (tok, (d0 :: ds'), r5)) = some (tok, (d0 :: ds'), ([] : Str))
  rw [hopt]

theorem scan_hits_generic (pre ds tok post : Str)
    (hpre : pre.all neutralChar = true)
    (hne : ds ≠ []) (hlen : ds.length ≤ 6) (hdig : ds.all isAsciiDigit = true)
    (hTok : ∀ rest, (kindCands (tok ++ rest)).head? = some (tok, rest))
    (hTokSp : ∀ r, countLeading isSpaceChar (tok ++ r) = 0)
    (htne : tok ≠ []) :
    (((natOfDigits ds : Int), kind_to_std tok) ∈
        scan_line_for_hits (pre ++ (ds ++ 'G' :: ' ' :: (tok ++ post))))
    ∧ (((natOfDigits ds : Int), kind_to_std tok) ∈
        scan_line_for_hits (pre ++ (tok ++ (ds ++ 'G' :: post))))
    ∧ (((natOfDigits ds : Int), kind_to_std tok) ∈
        scan_line_for_hits (pre ++ (tok ++ ds))) := by
  have hpren : pre.all (fun c => !(isNumChar c)) = true := by
    rw [List.all_eq_true] at hpre ⊢
    intro c hc
    simp [neutral_not_num (hpre c hc)]
  have hmap : ((num_to_int ds).map (fun gi => (gi, kind_to_std tok))) =
      some ((natOfDigits ds : Int), kind_to_std tok) := by
    rw [num_to_int_digits hne hdig]
    rfl
  refine ⟨?_, ?_, ?_⟩
  · unfold scan_line_for_hits
    rw [List.mem_append]
    left
    rw [List.mem_filterMap]
    refine ⟨(ds, tok), ?_, hmap⟩
    rw [finditer1_skip _ hpren]
    obtain ⟨d0, ds', rfl⟩ : ∃ d0 ds', ds = d0 :: ds' := by
      cases ds with
      | nil => exact absurd rfl hne
      | cons a b => exact ⟨a, b, rfl⟩
    have hm := matchP1At_form (d0 :: ds') tok post hne hlen hdig hTok hTokSp
    rw [List.cons_append] at hm
    rw [List.cons_append, finditer1_cons, hm]
    exact List.mem_cons_self _ _
  · unfold scan_line_for_hits
    rw [List.mem_append]
    right
    rw [List.mem_filterMap]
    refine ⟨(tok, ds), ?_, hmap⟩
    rw [finditer2_skip _ hpre]
    obtain ⟨t0, tok', rfl⟩ : ∃ t0 tok', tok = t0 :: tok' := by
      cases tok with
      | nil => exact absurd rfl htne
      | cons a b => exact ⟨a, b, rfl⟩
    have hm := matchP2At_form ds (t0 :: tok') post hne hlen hdig hTok
    rw [List.cons_append] at hm
    rw [List.cons_append, finditer2_cons, hm]
    exact List.mem_cons_self _ _
  · unfold scan_line_for_hits
    rw [List.mem_append]
    right
    rw [List.mem_filterMap]
    refine ⟨(tok, ds), ?_, hmap⟩
    rw [finditer2_skip _ hpre]
    obtain ⟨t0, tok', rfl⟩ : ∃ t0 tok', tok = t0 :: tok' := by
      cases tok with
      | nil => exact absurd rfl htne
      | cons a b => exact ⟨a, b, rfl⟩
    have hm := matchP2At_form_end ds (t0 :: tok') hne hlen hdig hTok
    rw [List.cons_append] at hm
    rw [List.cons_append, finditer2_cons, hm]
    exact List.mem_cons_self _ _

set_option maxHeartbeats 2000000 in
/-- C1: on a normalized line, a hit written as `<n>G <kind>` (the
number-then-kind inline pattern, here with the optional `G` marker and one
space) or `<kind><n>G` / `<kind><n>` (the kind-then-number pattern, with
and without the marker) is extracted by `_scan_line_for_hits` as the pair
`(n, _kind_to_std kind)`, for every 1–6-digit number, every `RE_KIND`
token, every neutral prefix and every suffix; and `_kind_to_std` sends a
token to REG exactly under the claim's REG condition (contains "REG", or
contains both `R` and `B` outside the literal "BB", or contains the
Japanese synonym stem "レギュ"), and to BIG in every other case.  In
particular `"123G BIG"` yields `(123, BIG)` and the normalized form
`"REG45"` of `"ＲＥＧ４５"` yields `(45, REG)` (see the witness). -/
theorem C1_hits :
    (∀ pre ds tok post : Str,
        pre.all neutralChar = true → ds ≠ [] → ds.length ≤ 6 →
        ds.all isAsciiDigit = true → tok ∈ kindTokens →
        (((natOfDigits ds : Int), kind_to_std tok) ∈
            scan_line_for_hits (pre ++ (ds ++ 'G' :: ' ' :: (tok ++ post))))
        ∧ (((natOfDigits ds : Int), kind_to_std tok) ∈
            scan_line_for_hits (pre ++ (tok ++ (ds ++ 'G' :: post))))
        ∧ (((natOfDigits ds : Int), kind_to_std tok) ∈
            scan_line_for_hits (pre ++ (tok ++ ds))))
    ∧ (∀ raw : Str, kind_to_std raw = "REG".data ↔ kindRegSpec raw = true)
    ∧ (∀ raw : Str, kind_to_std raw = "BIG".data ∨ kind_to_std raw = "REG".data) := by
  refine ⟨?_, kind_to_std_REG_iff, kind_to_std_total⟩
  intro pre ds tok post hpre hne hlen hdig htok
  have h10 : tok = "BIG".data ∨ tok = "ＢＩＧ".data ∨ tok = "ビッグ".data ∨
      tok = "REG".data ∨ tok = "ＲＥＧ".data ∨ tok = "レギュラ".data ∨
      tok = "RB".data ∨ tok = "ＲＢ".data ∨ tok = "BB".data ∨ tok = "ＢＢ".data := by
    simpa [kindTokens] using htok
  rcases h10 with rfl | rfl | rfl | rfl | rfl | rfl | rfl | rfl | rfl | rfl
  all_goals refine scan_hits_generic _ _ _ _ hpre hne hlen hdig ?_ ?_ (by decide)
  all_goals exact fun _ => rfl

/-- Witness for C1 at the claim's two examples: `"123G BIG"` yields
`(123, BIG)` and `"REG45"` (the normalized form of `"ＲＥＧ４５"`) yields
`(45, REG)`. -/
theorem C1_hits_witness :
    (((123 : Int), "BIG".data) ∈ scan_line_for_hits ("123G BIG".data))
    ∧ (((45 : Int), "REG".data) ∈ scan_line_for_hits ("REG45".data)) := by
  constructor
  · exact (C1_hits.1 [] ("123".data) ("BIG".data) [] (by decide) (by decide) (by decide)
      (by decide) (by decide)).1
  · exact (C1_hits.1 [] ("45".data) ("REG".data) [] (by decide) (by decide) (by decide)
      (by decide) (by decide)).2.2

end Pscube
